import Mathlib

/-!
# crcs.c: CRC-32C file-integrity tracker

A shallow embedding of `src/crcs.c` (checksum engine, manifest codec,
change-detection index, update and check operations) together with the
properties of its specification.

Conventions of the embedding

* A byte is a `Fin 256`; buffers, file contents, file names and manifest text
  are lists of bytes.
* Machine words are natural numbers; every place where the C code or the
  processor truncates is written with an explicit `% 2 ^ w`.
* The two processor instructions used by `crc32c_hw` (`crc32b`, `crc32q`) are
  embedded from the operation section of the instruction-set reference
  (bit reflection and remainder modulo the polynomial `11EDC6F41H`).
* The C library (`printf`, `sscanf`, `fgets`) and the operating system
  (`stat`, `open`, `fstat`, `mmap`, `readdir`) are embedded as far as the
  program uses them.
-/

namespace Crcs

/-- One byte of memory, of a file or of a C string. -/
abbrev Byte := Fin 256

/-! ## The CRC32 instruction -/

/-- `BIT_REFLECT` of the instruction-set reference: the `w` low bits of `x` in
reverse order (bit `i` goes to bit `w - 1 - i`). -/
def bitReflect : Nat → Nat → Nat
  | 0, _ => 0
  | w + 1, x => (x % 2) * 2 ^ w + bitReflect w (x / 2)

/-- The CRC-32C generator polynomial with its leading term, `11EDC6F41H`. -/
def CRC32C_POLY : Nat := 0x11EDC6F41

/-- `MOD2` of the instruction-set reference: remainder of the polynomial
division over GF(2) of the dividend `t` (of `k + 32` bits) by `11EDC6F41H`.
Long division: for the bit positions `k + 31` down to `32`, when the bit is set
the divisor, aligned to that position, is subtracted (xor). -/
def mod2 : Nat → Nat → Nat
  | 0, t => t
  | k + 1, t => mod2 k (if t.testBit (k + 32) then t ^^^ (CRC32C_POLY <<< k) else t)

/-- Operation of `CRC32 r64, r/m(w)` for a source operand of `w` bits:
```
TEMP1[w-1:0]  := BIT_REFLECT(SRC[w-1:0])
TEMP2[31:0]   := BIT_REFLECT32(DEST[31:0])
TEMP3[w+31:0] := TEMP1 << 32
TEMP4[w+31:0] := TEMP2 << w
TEMP5[w+31:0] := TEMP3 XOR TEMP4
TEMP6[31:0]   := TEMP5 MOD2 11EDC6F41H
DEST[31:0]    := BIT_REFLECT(TEMP6)
DEST[63:32]   := 0
``` -/
def crc32_insn (w : Nat) (dest src : Nat) : Nat :=
  let temp1 := bitReflect w (src % 2 ^ w)
  let temp2 := bitReflect 32 (dest % 2 ^ 32)
  let temp3 := temp1 <<< 32
  let temp4 := temp2 <<< w
  let temp5 := temp3 ^^^ temp4
  let temp6 := mod2 w temp5
  bitReflect 32 temp6

/-- The instruction `crc32b (mem), %reg`: accumulate one byte. -/
def crc32b (crc : Nat) (b : Byte) : Nat := crc32_insn 8 crc b.val

/-- The instruction `crc32q (mem), %reg`: accumulate one 64-bit word. -/
def crc32q (crc : Nat) (word : Nat) : Nat := crc32_insn 64 crc word

/-- Little-endian value of a byte string. -/
def leValue (bs : List Byte) : Nat := bs.foldr (fun b acc => b.val + 256 * acc) 0

/-- The 64-bit little-endian word stored in (at most) the first eight bytes of a
buffer: the memory operand of `crc32q` on x86-64. -/
def load64 (buf : List Byte) : Nat := leValue (buf.take 8) % 2 ^ 64

/-! ## `crc32c_hw` -/

/-- First loop of `crc32c_hw`: `while (len >= 32)` four chained `crc32q` on the
words at offsets 0, 8, 16, 24, then `buf += 32; len -= 32`.  The state is the
register and the remaining buffer; `fuel` bounds the number of iterations. -/
def crc32c_hw_loop32 : Nat → Nat → List Byte → Nat × List Byte
  | 0, crc, buf => (crc, buf)
  | fuel + 1, crc, buf =>
    if 32 ≤ buf.length then
      let crc := crc32q crc (load64 buf)
      let crc := crc32q crc (load64 (buf.drop 8))
      let crc := crc32q crc (load64 (buf.drop 16))
      let crc := crc32q crc (load64 (buf.drop 24))
      crc32c_hw_loop32 fuel crc (buf.drop 32)
    else (crc, buf)

/-- Second loop of `crc32c_hw`: `while (len)` one `crc32b` per byte. -/
def crc32c_hw_loop1 : Nat → List Byte → Nat
  | crc, [] => crc
  | crc, b :: buf => crc32c_hw_loop1 (crc32b crc b) buf

/-- The computation of `crc32c_hw` on the `len` bytes at `buf`:
`crc = 0xffffffff`, the two loops, `return ~(uint32_t)crc`. -/
def crc32c_hw_run (buf : List Byte) : Nat :=
  let crc := 0xffffffff
  let st := crc32c_hw_loop32 buf.length crc buf
  let crc := crc32c_hw_loop1 st.1 st.2
  0xffffffff - crc % 2 ^ 32

/-- The function `crc32c_hw(buf, len)`: `addr` is the address held by `buf`, `mem` the
`len` bytes stored there.  `none` is the abort of
`assert((uintptr_t)buf % 8 == 0)`. -/
def crc32c_hw (addr : Nat) (mem : List Byte) : Option Nat :=
  if addr % 8 = 0 then some (crc32c_hw_run mem) else none

/-! ## CRC-32C as the specification words it -/

/-- The reflected form of the polynomial `0x1EDC6F41`. -/
def CRC32C_REFLECTED : Nat := 0x82F63B78

/-- One right-shift step: shift the register right by one bit and xor
`0x82F63B78` in when the bit shifted out is 1. -/
def crc32c_shift (r : Nat) : Nat :=
  if r % 2 = 1 then (r >>> 1) ^^^ CRC32C_REFLECTED else r >>> 1

/-- Iterated right-shift steps. -/
def crc32c_shifts : Nat → Nat → Nat
  | 0, r => r
  | k + 1, r => crc32c_shifts k (crc32c_shift r)

/-- One byte: xor it into the low 8 bits of the register, then 8 shift steps. -/
def crc32c_spec_byte (r : Nat) (b : Byte) : Nat :=
  crc32c_shifts 8 (r ^^^ b.val)

/-- Standard CRC-32C: register `0xFFFFFFFF`, every byte in order, and the
bitwise complement of the 32-bit register at the end. -/
def crc32c_spec (bs : List Byte) : Nat :=
  (bs.foldl crc32c_spec_byte 0xFFFFFFFF) ^^^ 0xFFFFFFFF



/-! ## C strings and the C library: `fgets`, `sscanf`, `fprintf` -/

/-- The C string stored in a buffer: the bytes before the first NUL. -/
def cstr (buf : List Byte) : List Byte := buf.takeWhile (fun c => c.val ≠ 0)

/-- One call `fgets(lb, n + 1, f)`: reads at most `n` bytes, stopping after a
newline or at the end of the file.  Returns the bytes read and the rest of the
file. -/
def fgets : Nat → List Byte → List Byte × List Byte
  | 0, s => ([], s)
  | _ + 1, [] => ([], [])
  | n + 1, c :: s =>
    if c.val = 10 then ([c], s) else ((c :: (fgets n s).1), (fgets n s).2)

/-- The successive buffers `lb` of the loop `while (fgets(lb, sizeof(lb), f))` with
`char lb[320]`, until `fgets` returns `NULL` at the end of the file.  Every call reads
at least one byte, so `fuel` = length of the file is enough. -/
def fgets_loop : Nat → List Byte → List (List Byte)
  | 0, _ => []
  | fuel + 1, s =>
    match s with
    | [] => []
    | _ :: _ => (fgets 319 s).1 :: fgets_loop fuel (fgets 319 s).2

/-- All the buffers read by the `fgets` loop from a file with the given contents. -/
def fgets_lines (content : List Byte) : List (List Byte) :=
  fgets_loop content.length content

/-- C `isspace` in the "C" locale: space, `\t`, `\n`, `\v`, `\f`, `\r`. -/
def isspace (c : Byte) : Bool := c.val = 32 || (9 ≤ c.val && c.val ≤ 13)

/-- A white-space directive of a `scanf` format, and the white space skipped before a
numeric conversion: input is read up to the first byte that is not white space. -/
def skip_space (s : List Byte) : List Byte := s.dropWhile isspace

/-- Value of a hexadecimal digit. -/
def hexval (c : Byte) : Option Nat :=
  if 48 ≤ c.val ∧ c.val ≤ 57 then some (c.val - 48)
  else if 97 ≤ c.val ∧ c.val ≤ 102 then some (c.val - 87)
  else if 65 ≤ c.val ∧ c.val ≤ 70 then some (c.val - 55)
  else none

/-- Value of a decimal digit. -/
def decval (c : Byte) : Option Nat :=
  if 48 ≤ c.val ∧ c.val ≤ 57 then some (c.val - 48) else none

/-- Value of a digit in base 16 (`%x`) or base 10 (`%lu`). -/
def digitval (base : Nat) (c : Byte) : Option Nat :=
  if base = 16 then hexval c else decval c

/-- The longest run of digits at the head of the input: its value on top of the
accumulator, the number of digits read, and the input left. -/
def scan_digits (base : Nat) : List Byte → Nat → Nat → Nat × Nat × List Byte
  | [], acc, n => (acc, n, [])
  | c :: s, acc, n =>
    match digitval base c with
    | some d => scan_digits base s (acc * base + d) (n + 1)
    | none => (acc, n, c :: s)

/-- The largest `unsigned long`. -/
def ULONG_MAX : Nat := 2 ^ 64 - 1

/-- An optional sign at the head of the input: whether it is `-`, and the input left. -/
def scan_sign : List Byte → Bool × List Byte
  | [] => (false, [])
  | c :: s => if c.val = 45 then (true, s) else if c.val = 43 then (false, s) else (false, c :: s)

/-- A leading `0` of a number, with the `x` or `X` that may follow it in base 16:
the number of digits read (0 or 1) and the input left. -/
def scan_zero (base : Nat) : List Byte → Nat × List Byte
  | [] => (0, [])
  | c :: s =>
    if c.val = 48 then
      match s with
      | [] => (1, [])
      | x :: t => if base = 16 ∧ (x.val = 120 ∨ x.val = 88) then (1, t) else (1, x :: t)
    else (0, c :: s)

/-- The conversions `%x` (base 16) and `%lu` (base 10) of `scanf`, without field
width: skip white space, read an optional sign, an optional `0x` (base 16) and the
longest run of digits.  The conversion fails (`none`) when no digit was read.  The
value is the one `strtoul` gives: the largest `unsigned long` when the digits exceed
it, the negation modulo `2^64` after a minus sign.  Returns the value and the input
left. -/
def scan_unsigned (base : Nat) (s : List Byte) : Option (Nat × List Byte) :=
  let sg := scan_sign (skip_space s)
  let z := scan_zero base sg.2
  let d := scan_digits base z.2 0 0
  if z.1 + d.2.1 = 0 then none
  else if ULONG_MAX < d.1 then some (ULONG_MAX, d.2.2)
  else if sg.1 then some ((2 ^ 64 - d.1) % 2 ^ 64, d.2.2)
  else some (d.1, d.2.2)

/-- The conversion `%255[^\n]` (with `width` = 255): the bytes up to the first
newline, at most `width` of them; fails when there is none.  Returns the
bytes stored and the input left. -/
def scan_set (width : Nat) (s : List Byte) : Option (List Byte × List Byte) :=
  let m := (s.takeWhile (fun c => c.val ≠ 10)).take width
  if m = [] then none else some (m, s.drop m.length)

/-- A manifest record: the three values filled in by `sscanf`, written by `fprintf`. -/
structure Record where
  crc : Nat
  mtime : Nat
  filename : List Byte
deriving DecidableEq, Repr

/-- The call `sscanf(lb, "%x %lu\t%255[^\n]", &crc, &mtime, filename)`, where `crc`
is a `uint32_t` and `mtime` a `uint64_t`: `some` of the three values when the call
returns 3, `none` when it returns anything else. -/
def sscanf_line (lb : List Byte) : Option Record :=
  match scan_unsigned 16 (cstr lb) with
  | none => none
  | some (x, s1) =>
    match scan_unsigned 10 (skip_space s1) with
    | none => none
    | some (t, s2) =>
      match scan_set 255 (skip_space s2) with
      | none => none
      | some (name, _) => some ⟨x % 2 ^ 32, t, name⟩

/-- The character of a digit below 16, in lower case as `%x` prints it. -/
def digit_char (d : Nat) : Byte :=
  if d < 10 then Fin.ofNat (48 + d) else Fin.ofNat (87 + d)

/-- The digits of `v` in the given base, most significant first, without leading
zeros (one digit for 0).  `fuel` bounds the number of digits. -/
def number_digits (base : Nat) : Nat → Nat → List Nat
  | 0, _ => []
  | fuel + 1, v =>
    (if v / base = 0 then [] else number_digits base fuel (v / base)) ++ [v % base]

/-- The conversions `%08x` (base 16, width 8) and `%010lu` (base 10, width 10) of
`printf`: the digits of the value, padded with zeros on the left up to the
width.  The values printed are below `2^64`, which have at most 64 digits. -/
def print_unsigned (base width v : Nat) : List Byte :=
  (List.replicate (width - (number_digits base 64 v).length) 0
    ++ number_digits base 64 v).map digit_char

/-- The call `fprintf(f, "%08x %010lu\t%s\n", crc, mtime, d_name)` with a `uint32_t`
checksum, a `uint64_t` time and a C string: the bytes written. -/
def fprintf_line (crc mtime : Nat) (d_name : List Byte) : List Byte :=
  print_unsigned 16 8 (crc % 2 ^ 32) ++ [32] ++ print_unsigned 10 10 (mtime % 2 ^ 64)
    ++ [9] ++ d_name ++ [10]

/-! ## The file system -/

/-- What the operating system knows of one file: the fields of `struct stat` that
the program reads, the contents, and the outcome of the system calls of
`calc_file_crc` on it. -/
structure File where
  /-- The inode number `st_ino`. -/
  st_ino : Nat
  /-- The modification time `st_mtime`, a signed `time_t`. -/
  st_mtime : Int
  /-- The test `S_ISREG(st_mode)`. -/
  is_reg : Bool
  /-- The contents; `st_size` is their length. -/
  data : List Byte
  /-- Whether `open(filename, O_RDONLY)` succeeds. -/
  can_open : Bool
  /-- Whether `fstat(fd, &sb)` succeeds. -/
  can_fstat : Bool
  /-- The page at which `mmap` maps the file, `none` when it returns `MAP_FAILED`
  for a reason other than a zero length. -/
  map_page : Option Nat
deriving DecidableEq

/-- The state of the file system as the program sees it from its working
directory. -/
structure FileSystem where
  /-- Path resolution, as done by `stat` and `open`: `none` when the call fails. -/
  lookup : List Byte → Option File
  /-- The bytes read through `fopen("CRCS", "r")`, `none` when it returns `NULL`. -/
  crcs : Option (List Byte)
  /-- Whether `fopen("CRCS", "w")` succeeds. -/
  crcs_writable : Bool
  /-- The names returned by `readdir` after `opendir(".")`, in enumeration order;
  `none` when `opendir` returns `NULL`. -/
  dir : Option (List (List Byte))

/-- The conversion `(uint64_t)sb.st_mtime`, also applied by the comparisons of
`st_mtime` with a `uint64_t`. -/
def u64 (t : Int) : Nat := (t % 2 ^ 64).toNat

/-- The call `mmap(NULL, size, PROT_READ, MAP_PRIVATE, fd, 0)`: the address of the
mapping, a multiple of the page size, and the bytes mapped.  `none` is `MAP_FAILED`;
a length of zero is refused (`EINVAL`). -/
def mmap (f : File) (size : Nat) : Option (Nat × List Byte) :=
  if size = 0 then none
  else
    match f.map_page with
    | none => none
    | some page => some (4096 * page, f.data.take size)

/-- The function `calc_file_crc(filename, &crc)`: `some crc` when it returns 0 having
stored `crc`, `none` when it returns -1 (`open`, `fstat` or `mmap` failed).  The
address passed to `crc32c_hw` is page aligned, so its assertion holds. -/
def calc_file_crc (fs : FileSystem) (filename : List Byte) : Option Nat :=
  match fs.lookup filename with
  | none => none
  | some f =>
    if f.can_open = false then none
    else if f.can_fstat = false then none
    else
      match mmap f f.data.length with
      | none => none
      | some (addr, mem) => crc32c_hw addr mem

/-! ## The change-detection index: `load_crcfile` -/

/-- The C structure `struct crc_entry`. -/
structure crc_entry where
  ino : Nat
  mtime : Nat
  crc : Nat
deriving DecidableEq, Repr

/-- Second loop of `load_crcfile` over the buffers read by `fgets`: `crcs` are the
entries `crcs[0 .. i-1]` filled so far (`i` is their number), `n` the number of
lines counted by the first loop. -/
def load_crcfile_loop (fs : FileSystem) (n : Nat) :
    List (List Byte) → List crc_entry → List crc_entry
  | [], crcs => crcs
  | lb :: lines, crcs =>
    match sscanf_line lb with
    | none => load_crcfile_loop fs n lines crcs
    | some r =>
      match fs.lookup r.filename with
      | none => load_crcfile_loop fs n lines crcs
      | some sb =>
        if (crcs ++ [crc_entry.mk sb.st_ino r.mtime r.crc]).length = n
        then crcs ++ [crc_entry.mk sb.st_ino r.mtime r.crc]
        else load_crcfile_loop fs n lines (crcs ++ [crc_entry.mk sb.st_ino r.mtime r.crc])

/-- The function `load_crcfile()`: `none` is `NULL` (the manifest cannot be opened),
otherwise the entries of the array before the terminator `crcs[i].ino = 0`; the
array is allocated with `n + 1` entries, `n` being the number of `fgets` lines. -/
def load_crcfile (fs : FileSystem) : Option (List crc_entry) :=
  match fs.crcs with
  | none => none
  | some content =>
    some (load_crcfile_loop fs (fgets_lines content).length (fgets_lines content) [])

/-- The scan `while (old && old->ino)` of `update_crcfile` over the array returned by
`load_crcfile`, for the inode and time of the current file: the entry at which the
loop stops with `found = 1`, or `none` when it reaches an entry with `ino == 0`
(the terminator after the last entry). -/
def find_old : List crc_entry → Nat → Nat → Option crc_entry
  | [], _, _ => none
  | old :: olds, ino, mtime =>
    if old.ino = 0 then none
    else if old.ino = ino ∧ old.mtime = mtime then some old
    else find_old olds ino mtime

/-- The index scan on the result of `load_crcfile`, `NULL` included. -/
def find_old_crcs (old_crcs : Option (List crc_entry)) (ino mtime : Nat) :
    Option crc_entry :=
  match old_crcs with
  | none => none
  | some crcs => find_old crcs ino mtime

/-! ## `update_crcfile` -/

/-- The name of the manifest, `"CRCS"`. -/
def CRCS : List Byte := [67, 82, 67, 83]

/-- What the `readdir` loop of `update_crcfile` has produced so far: the bytes written
to the new manifest, and the files on which `calc_file_crc` was called. -/
structure UpdateState where
  out : List Byte
  calc_calls : List (List Byte)

/-- Body of the `readdir` loop of `update_crcfile` for the entry `d_name`. -/
def update_entry (fs : FileSystem) (old_crcs : Option (List crc_entry))
    (st : UpdateState) (d_name : List Byte) : UpdateState :=
  if d_name = CRCS then st
  else
    match fs.lookup d_name with
    | none => st
    | some sb =>
      if sb.is_reg = false then st
      else
        match find_old_crcs old_crcs sb.st_ino (u64 sb.st_mtime) with
        | some old =>
          { st with out := st.out ++ fprintf_line old.crc old.mtime d_name }
        | none =>
          match calc_file_crc fs d_name with
          | some crc =>
            { out := st.out ++ fprintf_line crc (u64 sb.st_mtime) d_name,
              calc_calls := st.calc_calls ++ [d_name] }
          | none => { st with calc_calls := st.calc_calls ++ [d_name] }

/-- Result of `update_crcfile`: the value returned, the file system afterwards, and
the files on which `calc_file_crc` was called. -/
structure UpdateResult where
  ret : Nat
  fs : FileSystem
  calc_calls : List (List Byte)

/-- The function `update_crcfile()`.  The only change to the file system is the
manifest, truncated by `fopen("CRCS", "w")` and holding after `fclose` what the loop
wrote. -/
def update_crcfile (fs : FileSystem) : UpdateResult :=
  let old_crcs := load_crcfile fs
  if fs.crcs_writable = false then ⟨1, fs, []⟩
  else
    match fs.dir with
    | none => ⟨1, { fs with crcs := some [] }, []⟩
    | some entries =>
      let st := entries.foldl (update_entry fs old_crcs) ⟨[], []⟩
      ⟨0, { fs with crcs := some st.out }, st.calc_calls⟩

/-! ## `check_crcfile` -/

/-- The outcome of one record in `check_crcfile`: the branch of the loop body that
ends its processing (`NFOUND`, `MODIFIED`, the failure of `calc_file_crc`, `BROKEN`,
`OK`). -/
inductive Outcome where
  | NotFound
  | Modified
  | Error
  | Broken
  | Ok
deriving DecidableEq, Repr

/-- The local state of `check_crcfile`: the four counters, the outcome reported for
each record so far, and the files on which `calc_file_crc` was called.  The
counters are C `int`s, counted here in `Nat`: they are exact as long as the
manifest has fewer than `2^31` lines. -/
structure CheckState where
  n_nfound : Nat
  n_changed : Nat
  n_broken : Nat
  n_err : Nat
  report : List (Outcome × List Byte)
  calc_calls : List (List Byte)

/-- Body of the `fgets` loop of `check_crcfile` for the buffer `lb`. -/
def check_line (fs : FileSystem) (st : CheckState) (lb : List Byte) : CheckState :=
  match sscanf_line lb with
  | none => st
  | some r =>
    match fs.lookup r.filename with
    | none =>
      { st with n_nfound := st.n_nfound + 1,
                report := st.report ++ [(Outcome.NotFound, r.filename)] }
    | some sb =>
      if u64 sb.st_mtime ≠ r.mtime then
        { st with n_changed := st.n_changed + 1,
                  report := st.report ++ [(Outcome.Modified, r.filename)] }
      else
        match calc_file_crc fs r.filename with
        | some crc_calc =>
          if r.crc = crc_calc then
            { st with report := st.report ++ [(Outcome.Ok, r.filename)],
                      calc_calls := st.calc_calls ++ [r.filename] }
          else
            { st with n_broken := st.n_broken + 1,
                      report := st.report ++ [(Outcome.Broken, r.filename)],
                      calc_calls := st.calc_calls ++ [r.filename] }
        | none =>
          { st with n_err := st.n_err + 1,
                    report := st.report ++ [(Outcome.Error, r.filename)],
                    calc_calls := st.calc_calls ++ [r.filename] }

/-- The state of `check_crcfile` before the loop. -/
def check_init : CheckState := ⟨0, 0, 0, 0, [], []⟩

/-- The function `check_crcfile()`: the value returned and the final state. -/
def check_crcfile (fs : FileSystem) : Nat × CheckState :=
  match fs.crcs with
  | none => (2, check_init)
  | some content =>
    let st := (fgets_lines content).foldl (check_line fs) check_init
    if st.n_nfound = 0 ∧ st.n_changed = 0 ∧ st.n_broken = 0 ∧ st.n_err = 0
    then (0, st) else (1, st)

/-- The records of a manifest: what `sscanf` fills from each `fgets` buffer on which
it returns 3. -/
def manifest_records (content : List Byte) : List Record :=
  (fgets_lines content).filterMap sscanf_line

/-! ## `main` -/

/-- The branch `calc <filename>` of `main`: the value returned, and the bytes that
`printf("%08x", crc)` writes to the standard output. -/
def main_calc (fs : FileSystem) (filename : List Byte) : Nat × List Byte :=
  match calc_file_crc fs filename with
  | none => (1, [])
  | some crc => (0, print_unsigned 16 8 (crc % 2 ^ 32))

/-! ## The outcome of a record as the specification words it -/

/-- The classification of the specification, decided in this order: `NotFound` when
`stat` of the file name fails; otherwise `Modified` when the current time differs
from the recorded one; otherwise `Error` when reading the file fails; otherwise
`Broken` when the recomputed checksum differs from the recorded one; otherwise
`Ok`. -/
def spec_outcome (fs : FileSystem) (r : Record) : Outcome :=
  match fs.lookup r.filename with
  | none => Outcome.NotFound
  | some sb =>
    if u64 sb.st_mtime ≠ r.mtime then Outcome.Modified
    else
      match calc_file_crc fs r.filename with
      | none => Outcome.Error
      | some c => if c ≠ r.crc then Outcome.Broken else Outcome.Ok

/-- The state of `check_crcfile` after a record with the given outcome. -/
def check_bump (st : CheckState) (o : Outcome) (filename : List Byte) : CheckState :=
  { n_nfound := st.n_nfound + (if o = Outcome.NotFound then 1 else 0),
    n_changed := st.n_changed + (if o = Outcome.Modified then 1 else 0),
    n_broken := st.n_broken + (if o = Outcome.Broken then 1 else 0),
    n_err := st.n_err + (if o = Outcome.Error then 1 else 0),
    report := st.report ++ [(o, filename)],
    calc_calls := st.calc_calls ++
      (if o = Outcome.NotFound ∨ o = Outcome.Modified then [] else [filename]) }

/-! ## Definitions used by the statements -/

/-- The index entry that `load_crcfile` makes of a record: the inode of the file
that `stat` finds under the recorded name, with the recorded time and checksum;
none when `stat` fails. -/
def index_entry (fs : FileSystem) (r : Record) : Option crc_entry :=
  match fs.lookup r.filename with
  | none => none
  | some sb => some ⟨sb.st_ino, r.mtime, r.crc⟩

/-- The records of the previous manifest, none when it cannot be opened. -/
def previous_records (fs : FileSystem) : List Record :=
  match fs.crcs with
  | none => []
  | some content => manifest_records content

/-- A run of hexadecimal digits. -/
def all_hex (s : List Byte) : Prop := ∀ c ∈ s, (hexval c).isSome = true

/-- A run of decimal digits. -/
def all_dec (s : List Byte) : Prop := ∀ c ∈ s, (decval c).isSome = true

/-- A run of white space. -/
def all_space (s : List Byte) : Prop := ∀ c ∈ s, isspace c = true

/-- An optional sign: nothing, `-` or `+`. -/
def opt_sign (s : List Byte) : Prop := s = [] ∨ s = [45] ∨ s = [43]

/-- A hexadecimal number as `%x` reads it: one or more hexadecimal digits, or `0x`
or `0X` followed by any number of them. -/
def hex_number (s : List Byte) : Prop :=
  (s ≠ [] ∧ all_hex s) ∨
    ∃ x ds, (x.val = 120 ∨ x.val = 88) ∧ s = (48 : Byte) :: x :: ds ∧ all_hex ds

/-- The shape of a line as the specification words it: exactly 8 hexadecimal
digits, one space, one or more decimal digits, one tab, then a non-empty file name
running to the line terminator (a newline or the end of the line). -/
def exact_shape (s : List Byte) : Prop :=
  ∃ hex dec name term,
    s = hex ++ [32] ++ dec ++ [9] ++ name ++ term ∧
    hex.length = 8 ∧ all_hex hex ∧ dec ≠ [] ∧ all_dec dec ∧
    name ≠ [] ∧ (∀ c ∈ name, c.val ≠ 10) ∧ (term = [] ∨ term = [10])

/-- The shape of the lines on which `sscanf` returns 3, with the file name it
stores: optional white space, an optionally signed hexadecimal number, optional
white space, an optionally signed run of decimal digits, optional white space, then
a non-empty file name of at most 255 bytes without newline; anything may follow. -/
def loose_shape (s : List Byte) (filename : List Byte) : Prop :=
  ∃ ws1 sg1 hex ws2 sg2 dec ws3 rest,
    s = ws1 ++ sg1 ++ hex ++ ws2 ++ sg2 ++ dec ++ ws3 ++ filename ++ rest ∧
    all_space ws1 ∧ opt_sign sg1 ∧ hex_number hex ∧
    all_space ws2 ∧ opt_sign sg2 ∧ dec ≠ [] ∧ all_dec dec ∧
    all_space ws3 ∧ filename ≠ [] ∧ filename.length ≤ 255 ∧ (∀ c ∈ filename, c.val ≠ 10)

/-- The number written by a list of digits, most significant first, on top of an
accumulator. -/
def digits_value (base : Nat) (acc : Nat) (ds : List Nat) : Nat :=
  ds.foldl (fun a d => a * base + d) acc

/-- A file name as `readdir` returns it in `d_name` (a non-empty C string of at
most 255 bytes) that the manifest format supports: no newline in it, and no
white space at its head. -/
def plain_name (name : List Byte) : Prop :=
  name ≠ [] ∧ name.length ≤ 255 ∧ (∀ c ∈ name, c.val ≠ 0 ∧ c.val ≠ 10) ∧
    ∀ c ∈ name.head?, isspace c = false

/-- The line written for a record. -/
def fprintf_record (r : Record) : List Byte := fprintf_line r.crc r.mtime r.filename

/-- A record as `update_crcfile` makes it: a 32-bit checksum, a 64-bit time, a
plain file name. -/
def plain_record (r : Record) : Prop :=
  r.crc < 2 ^ 32 ∧ r.mtime < 2 ^ 64 ∧ plain_name r.filename

/-- The record that the loop body of `update_crcfile` writes for a directory entry,
if any. -/
def update_record (fs : FileSystem) (old_crcs : Option (List crc_entry))
    (d_name : List Byte) : Option Record :=
  if d_name = CRCS then none
  else
    match fs.lookup d_name with
    | none => none
    | some sb =>
      if sb.is_reg = false then none
      else
        match find_old_crcs old_crcs sb.st_ino (u64 sb.st_mtime) with
        | some old => some ⟨old.crc, old.mtime, d_name⟩
        | none =>
          match calc_file_crc fs d_name with
          | some crc => some ⟨crc, u64 sb.st_mtime, d_name⟩
          | none => none

/-- The calls of `calc_file_crc` made by the loop body of `update_crcfile` for a
directory entry. -/
def update_calls (fs : FileSystem) (old_crcs : Option (List crc_entry))
    (d_name : List Byte) : List (List Byte) :=
  if d_name = CRCS then []
  else
    match fs.lookup d_name with
    | none => []
    | some sb =>
      if sb.is_reg = false then []
      else
        match find_old_crcs old_crcs sb.st_ino (u64 sb.st_mtime) with
        | some _ => []
        | none => [d_name]

/-- The directory entries that `update_crcfile` treats as files to track: `stat`
succeeds, the entry is a regular file, and it is not the manifest. -/
def tracked (fs : FileSystem) (d_name : List Byte) (sb : File) : Prop :=
  d_name ≠ CRCS ∧ fs.lookup d_name = some sb ∧ sb.is_reg = true

/-- The names that the `readdir` loop of `update_crcfile` goes through: none when
`opendir` fails. -/
def dir_entries (fs : FileSystem) : List (List Byte) :=
  match fs.dir with
  | none => []
  | some entries => entries

/-- The four bytes of a 32-bit value in little-endian order, as a `uint32_t` is
stored in memory on x86-64. -/
def le_bytes32 (v : Nat) : List Byte :=
  [Fin.ofNat (v % 256), Fin.ofNat (v / 256 % 256), Fin.ofNat (v / 65536 % 256),
    Fin.ofNat (v / 16777216 % 256)]

/-- A lower-case hexadecimal digit: `0` to `9` or `a` to `f`. -/
def lower_hex (c : Byte) : Prop := (48 ≤ c.val ∧ c.val ≤ 57) ∨ (97 ≤ c.val ∧ c.val ≤ 102)

/-- The file system after the file named `d` was deleted (`unlink`): the name
resolves no more and is no more enumerated, every other name is as before; the
manifest is as before unless it is the file deleted. -/
def unlink (fs : FileSystem) (d : List Byte) : FileSystem :=
  { fs with
    lookup := fun n => if n = d then none else fs.lookup n,
    crcs := if d = CRCS then none else fs.crcs,
    dir := fs.dir.map (fun entries => entries.filter (fun n => n ≠ d)) }

/-- The indices `i` of the array `crcs` that `load_crcfile` addresses, in the order of
execution, starting from the entry counter `i` with the `fgets` buffers still to
read: in every round of the second loop `sscanf` is given `&crcs[i].crc` and
`&crcs[i].mtime`; when `stat` succeeds `crcs[i].ino` is assigned and `i` is
incremented; the loop is left when `i == n` or at the end of the file, and the
terminator `crcs[i].ino = 0` is written. -/
def load_crcfile_writes (fs : FileSystem) (n : Nat) : List (List Byte) → Nat → List Nat
  | [], i => [i]
  | lb :: lines, i =>
    i ::
      match sscanf_line lb with
      | none => load_crcfile_writes fs n lines i
      | some r =>
        match fs.lookup r.filename with
        | none => load_crcfile_writes fs n lines i
        | some _ =>
          i :: (if i + 1 = n then [i + 1] else load_crcfile_writes fs n lines (i + 1))

/-- The number of entries of the array that `load_crcfile` allocates with
`malloc(sizeof(struct crc_entry)*(n+1))`, `n` being the number of lines counted by its
first loop.  The C variable `n` is an `int`, counted here in `Nat`: the count is
exact for a manifest of fewer than `2^31 - 1` lines. -/
def load_crcfile_alloc (content : List Byte) : Nat := (fgets_lines content).length + 1

/-- The record of a directory entry in the new manifest as the specification words
it: none unless the entry is a regular file not named `CRCS`; on an index hit the
name of the entry, its current time and the cached checksum; on a miss, when the
file can be read, the name, the current time and the `crc32c_hw` of the full
contents; none when the read fails. -/
def spec_update_record (fs : FileSystem) (d_name : List Byte) : Option Record :=
  match fs.lookup d_name with
  | none => none
  | some f =>
    if f.is_reg = true ∧ d_name ≠ CRCS then
      match find_old_crcs (load_crcfile fs) f.st_ino (u64 f.st_mtime) with
      | some hit => some ⟨hit.crc, u64 f.st_mtime, d_name⟩
      | none =>
        if (calc_file_crc fs d_name).isSome = true
        then some ⟨crc32c_hw_run f.data, u64 f.st_mtime, d_name⟩
        else none
    else none

/-- Whether the specification has the bytes of a directory entry read: the entry
is a regular file not named `CRCS` and is not an index hit. -/
def spec_file_read (fs : FileSystem) (d_name : List Byte) : Bool :=
  match fs.lookup d_name with
  | none => false
  | some f =>
    f.is_reg && decide (d_name ≠ CRCS) &&
      (find_old_crcs (load_crcfile fs) f.st_ino (u64 f.st_mtime)).isNone

/-! ## Sample states -/

/-- The file name `a`. -/
def name_a : List Byte := [97]

/-- A regular file of one byte, inode 5, modified at time 7. -/
def file_a : File :=
  { st_ino := 5, st_mtime := 7, is_reg := true, data := [1],
    can_open := true, can_fstat := true, map_page := some 3 }

/-- A directory holding the file `a`, without manifest. -/
def fs_a : FileSystem :=
  { lookup := fun n => if n = name_a then some file_a else none,
    crcs := none, crcs_writable := true,
    dir := some [[46], name_a, [46, 46]] }

/-- The manifest line `a016d052 0000000007\ta\n` of the file `a`. -/
def line_a : List Byte := fprintf_line 0xa016d052 7 name_a

/-- The file name `b`. -/
def name_b : List Byte := [98]

/-- A regular file with inode number 0. -/
def file_ino0 : File :=
  { st_ino := 0, st_mtime := 7, is_reg := true, data := [2],
    can_open := true, can_fstat := true, map_page := some 4 }

/-- A directory with the files `a` (inode 0) and `b` (inode 5), and a manifest with
one line for each. -/
def fs_ino0 : FileSystem :=
  { lookup := fun n =>
      if n = name_a then some file_ino0 else if n = name_b then some file_a else none,
    crcs := some (fprintf_line 1 7 name_a ++ fprintf_line 2 7 name_b),
    crcs_writable := true,
    dir := some [name_a, name_b] }

/-- The directory of `fs_a` with the manifest of the file `a`. -/
def fs_a_tracked : FileSystem := { fs_a with crcs := some line_a }

/-- The line `1 2 x`. -/
def line_short : List Byte := [49, 32, 50, 32, 120]

/-- The file name ` a`, with a space at its head. -/
def name_space_a : List Byte := [32, 97]

/-- The file `a` of `file_a` with other contents, of the same CRC-32C as five zero
bytes. -/
def file_collision : File := { file_a with data := [0x80, 0x78, 0x3B, 0xF6, 0x82] }

/-- A directory in which the manifest records the file `a` with the checksum of five
zero bytes, while the file, of unchanged time, holds other bytes of the same
checksum. -/
def fs_collision : FileSystem :=
  { lookup := fun n => if n = name_a then some file_collision else none,
    crcs := some (fprintf_line (crc32c_spec [0, 0, 0, 0, 0]) 7 name_a),
    crcs_writable := true,
    dir := some [name_a] }

/-- A directory in which the manifest records the file `a` with the checksum 0,
which is not the checksum of its contents, under its current inode and time. -/
def fs_stale : FileSystem := { fs_a with crcs := some (fprintf_line 0 7 name_a) }

/-- A regular file that cannot be opened. -/
def file_locked : File := { file_a with can_open := false }

/-- A directory with one regular file that cannot be opened, without manifest. -/
def fs_locked : FileSystem :=
  { lookup := fun n => if n = name_a then some file_locked else none,
    crcs := none, crcs_writable := true, dir := some [name_a] }

/-- The file `a` of `file_a` after its byte was replaced, the time unchanged. -/
def file_changed : File := { file_a with data := [2] }

/-- A directory in which the manifest records the file `a` as `file_a`, while the
file is `file_changed`. -/
def fs_changed : FileSystem :=
  { lookup := fun n => if n = name_a then some file_changed else none,
    crcs := some line_a, crcs_writable := true, dir := some [name_a] }

/-- The nine ASCII bytes `123456789`. -/
def ascii_123456789 : List Byte := [49, 50, 51, 52, 53, 54, 55, 56, 57]

/-- A buffer of 32 bytes `0x00`. -/
def zeros32 : List Byte := List.replicate 32 0

/-- A buffer of 41 bytes: one round of the 32-byte loop, then nine single bytes. -/
def bytes41 : List Byte := List.replicate 32 7 ++ ascii_123456789

/-- The eight bytes of one word, lowest address first. -/
def word_bytes : List Byte := [1, 2, 3, 4, 5, 6, 7, 8]

/-- A file of one byte that can be opened and examined with `fstat`, but that `mmap`
refuses to map. -/
def file_nomap : File := { file_a with map_page := none }

/-- A directory holding the file `a` as `file_nomap`. -/
def fs_nomap : FileSystem :=
  { lookup := fun n => if n = name_a then some file_nomap else none,
    crcs := none, crcs_writable := true, dir := some [name_a] }

/-- An empty regular file that can be opened and examined with `fstat`. -/
def file_empty : File := { file_a with data := [] }

/-- A directory holding the file `a` as `file_empty`. -/
def fs_empty : FileSystem :=
  { lookup := fun n => if n = name_a then some file_empty else none,
    crcs := none, crcs_writable := true, dir := some [name_a] }

/-- A regular file of one byte, inode 6, modified at time 8. -/
def file_b : File :=
  { st_ino := 6, st_mtime := 8, is_reg := true, data := [2],
    can_open := true, can_fstat := true, map_page := some 4 }

/-- A directory with the files `a` and `b`, both recorded in the manifest with their
current time and checksum. -/
def fs_ab : FileSystem :=
  { lookup := fun n =>
      if n = name_a then some file_a else if n = name_b then some file_b else none,
    crcs := some (line_a ++ fprintf_line (crc32c_spec [2]) 8 name_b),
    crcs_writable := true,
    dir := some [name_a, name_b] }

/-! ## Bit reflection and the shift register -/

theorem bitReflect_lt (w x : Nat) : bitReflect w x < 2 ^ w := by
  induction w generalizing x with
  | zero => simp [bitReflect]
  | succ w ih =>
    have h1 := ih (x / 2)
    have h2 : x % 2 < 2 := Nat.mod_lt _ (by decide)
    have h3 : x % 2 * 2 ^ w ≤ 1 * 2 ^ w := Nat.mul_le_mul_right _ (by omega)
    simp only [bitReflect, Nat.pow_succ]
    omega

theorem testBit_bitReflect (w x j : Nat) :
    (bitReflect w x).testBit j = (decide (j < w) && x.testBit (w - 1 - j)) := by
  induction w generalizing x j with
  | zero => simp [bitReflect]
  | succ w ih =>
    have hlt := bitReflect_lt w (x / 2)
    have key := Nat.testBit_mul_pow_two_add (x % 2) hlt j
    simp only [bitReflect]
    rw [Nat.mul_comm, key]
    by_cases hj : j < w
    · have e : w + 1 - 1 - j = (w - 1 - j) + 1 := by omega
      have hj1 : j < w + 1 := by omega
      simp only [hj, if_true, ih, hj1, e, Nat.testBit_add_one, decide_True, Bool.true_and]
    · simp only [hj, if_false]
      by_cases hjw : j = w
      · subst hjw
        simp [Nat.testBit_zero]
      · have h1 : ¬ j < w + 1 := by omega
        have h2 : x % 2 < 2 ^ (j - w) := by
          have : 2 ^ 1 ≤ 2 ^ (j - w) := Nat.pow_le_pow_right (by decide) (by omega)
          have : x % 2 < 2 := Nat.mod_lt _ (by decide)
          omega
        simp [h1, Nat.testBit_lt_two_pow h2]

theorem testBit_eq_false_of_lt {x n i : Nat} (h : x < 2 ^ n) (hi : n ≤ i) :
    x.testBit i = false :=
  Nat.testBit_lt_two_pow (Nat.lt_of_lt_of_le h (Nat.pow_le_pow_right (by decide) hi))

theorem bitReflect_bitReflect (w x : Nat) (h : x < 2 ^ w) :
    bitReflect w (bitReflect w x) = x := by
  apply Nat.eq_of_testBit_eq
  intro j
  rw [testBit_bitReflect, testBit_bitReflect]
  by_cases hj : j < w
  · have h1 : w - 1 - j < w := by omega
    have h2 : w - 1 - (w - 1 - j) = j := by omega
    simp [hj, h1, h2]
  · simp [hj, testBit_eq_false_of_lt h (by omega : w ≤ j)]

theorem crc32c_shift_lt {n r : Nat} (hn : 32 ≤ n) (h : r < 2 ^ (n + 1)) :
    crc32c_shift r < 2 ^ n := by
  have h1 : r >>> 1 < 2 ^ n := by
    rw [Nat.shiftRight_eq_div_pow]
    rw [Nat.pow_succ] at h
    omega
  have h2 : CRC32C_REFLECTED < 2 ^ n :=
    Nat.lt_of_lt_of_le (by decide : CRC32C_REFLECTED < 2 ^ 32)
      (Nat.pow_le_pow_right (by decide) hn)
  unfold crc32c_shift
  split
  · exact Nat.xor_lt_two_pow h1 h2
  · exact h1

theorem crc32c_shift_lt_32 {r : Nat} (h : r < 2 ^ 32) : crc32c_shift r < 2 ^ 32 := by
  have h1 : r >>> 1 < 2 ^ 32 := by
    rw [Nat.shiftRight_eq_div_pow]
    omega
  unfold crc32c_shift
  split
  · exact Nat.xor_lt_two_pow h1 (by decide)
  · exact h1

theorem poly_reflected (i : Nat) (hi : i < 32) :
    CRC32C_POLY.testBit i = CRC32C_REFLECTED.testBit (31 - i) := by
  revert i
  decide


theorem testBit_crc32c_shift (x i : Nat) :
    (crc32c_shift x).testBit i =
      (x.testBit (i + 1) ^^ (x.testBit 0 && CRC32C_REFLECTED.testBit i)) := by
  unfold crc32c_shift
  by_cases h : x % 2 = 1
  · simp [h, Nat.testBit_zero, Nat.add_comm]
  · simp [h, Nat.testBit_zero, Nat.add_comm]

theorem testBit_bitReflect_of_lt {w j k : Nat} (x : Nat) (h : j + k + 1 = w) :
    (bitReflect w x).testBit j = x.testBit k := by
  have h1 : j < w := by omega
  have h2 : w - 1 - j = k := by omega
  rw [testBit_bitReflect, h2]
  simp [h1]

theorem testBit_bitReflect_of_ge {w j : Nat} (x : Nat) (h : w ≤ j) :
    (bitReflect w x).testBit j = false := by
  have h1 : ¬ j < w := by omega
  rw [testBit_bitReflect]
  simp [h1]

theorem mod2_step (w X : Nat) :
    (if (bitReflect (w + 33) X).testBit (w + 32)
      then bitReflect (w + 33) X ^^^ (CRC32C_POLY <<< w) else bitReflect (w + 33) X)
      = bitReflect (w + 32) (crc32c_shift X) := by
  apply Nat.eq_of_testBit_eq
  intro j
  have htop : (bitReflect (w + 33) X).testBit (w + 32) = X.testBit 0 :=
    testBit_bitReflect_of_lt X (by omega)
  have hR : ∀ i, 32 ≤ i → CRC32C_REFLECTED.testBit i = false := fun i hi =>
    testBit_eq_false_of_lt (by decide : CRC32C_REFLECTED < 2 ^ 32) hi
  have hP : ∀ i, 33 ≤ i → CRC32C_POLY.testBit i = false := fun i hi =>
    testBit_eq_false_of_lt (by decide : CRC32C_POLY < 2 ^ 33) hi
  have hP32 : CRC32C_POLY.testBit 32 = true := by decide
  rw [htop]
  by_cases hj : j < w + 32
  · obtain ⟨k, hk⟩ : ∃ k, j + k + 1 = w + 32 := ⟨w + 31 - j, by omega⟩
    rw [testBit_bitReflect_of_lt _ hk, testBit_crc32c_shift]
    have hl : (bitReflect (w + 33) X).testBit j = X.testBit (k + 1) :=
      testBit_bitReflect_of_lt X (by omega)
    cases hx : X.testBit 0
    · simp [hl]
    · simp only [if_true, Nat.testBit_xor, hl, Nat.testBit_shiftLeft, Bool.true_and]
      congr 1
      by_cases hjw : w ≤ j
      · have hi : j - w < 32 := by omega
        have e2 : 31 - (j - w) = k := by omega
        rw [poly_reflected _ hi, e2]
        simp [hjw]
      · rw [hR k (by omega)]
        simp [hjw]
  · rw [testBit_bitReflect_of_ge _ (by omega : w + 32 ≤ j)]
    cases hx : X.testBit 0
    · by_cases hjw : j = w + 32
      · subst hjw
        simp [htop, hx]
      · simp [testBit_bitReflect_of_ge X (by omega : w + 33 ≤ j)]
    · simp only [if_true, Nat.testBit_xor, Nat.testBit_shiftLeft]
      by_cases hjw : j = w + 32
      · subst hjw
        have e4 : w + 32 - w = 32 := by omega
        rw [htop, hx, e4, hP32]
        simp
      · rw [testBit_bitReflect_of_ge X (by omega : w + 33 ≤ j), hP _ (by omega)]
        simp

/-- The remainder computed by the instruction, read back in reflected bit order,
is the result of the right-shift register. -/
theorem mod2_eq_shifts (w X : Nat) (h : X < 2 ^ (w + 32)) :
    bitReflect 32 (mod2 w (bitReflect (w + 32) X)) = crc32c_shifts w X := by
  induction w generalizing X with
  | zero =>
    simp only [mod2, crc32c_shifts, Nat.zero_add]
    exact bitReflect_bitReflect 32 X (by simpa using h)
  | succ w ih =>
    simp only [mod2, crc32c_shifts]
    have e : w + 1 + 32 = w + 33 := by omega
    rw [e] at h ⊢
    rw [mod2_step w X]
    exact ih _ (crc32c_shift_lt (by omega) h)

theorem crc32c_shifts_lt (w : Nat) {X : Nat} (h : X < 2 ^ (w + 32)) :
    crc32c_shifts w X < 2 ^ 32 := by
  rw [← mod2_eq_shifts w X h]
  exact bitReflect_lt _ _

theorem insn_operand (w d s : Nat) (hd : d < 2 ^ 32) (hs : s < 2 ^ w) :
    (bitReflect w s <<< 32) ^^^ (bitReflect 32 d <<< w) = bitReflect (w + 32) (d ^^^ s) := by
  apply Nat.eq_of_testBit_eq
  intro j
  simp only [Nat.testBit_xor, Nat.testBit_shiftLeft]
  by_cases h3 : j < w + 32
  · obtain ⟨k, hk⟩ : ∃ k, j + k + 1 = w + 32 := ⟨w + 31 - j, by omega⟩
    rw [testBit_bitReflect_of_lt _ hk, Nat.testBit_xor]
    have hS : (decide (j ≥ 32) && (bitReflect w s).testBit (j - 32)) = s.testBit k := by
      by_cases h1 : j ≥ 32
      · rw [testBit_bitReflect_of_lt s (by omega : (j - 32) + k + 1 = w)]
        simp [h1]
      · rw [testBit_eq_false_of_lt hs (by omega : w ≤ k)]
        simp [h1]
    have hD : (decide (j ≥ w) && (bitReflect 32 d).testBit (j - w)) = d.testBit k := by
      by_cases h1 : j ≥ w
      · rw [testBit_bitReflect_of_lt d (by omega : (j - w) + k + 1 = 32)]
        simp [h1]
      · rw [testBit_eq_false_of_lt hd (by omega : 32 ≤ k)]
        simp [h1]
    rw [hS, hD, Bool.xor_comm]
  · rw [testBit_bitReflect_of_ge _ (by omega : w + 32 ≤ j),
      testBit_bitReflect_of_ge s (by omega : w ≤ j - 32),
      testBit_bitReflect_of_ge d (by omega : 32 ≤ j - w)]
    simp

/-- The CRC32 instruction on a `w`-bit operand is `w` right-shift steps on the
register xor the operand. -/
theorem crc32_insn_eq_shifts (w d s : Nat) :
    crc32_insn w d s = crc32c_shifts w ((d % 2 ^ 32) ^^^ (s % 2 ^ w)) := by
  have hd : d % 2 ^ 32 < 2 ^ 32 := Nat.mod_lt _ (by decide)
  have hs : s % 2 ^ w < 2 ^ w := Nat.mod_lt _ (Nat.two_pow_pos w)
  have hx : (d % 2 ^ 32) ^^^ (s % 2 ^ w) < 2 ^ (w + 32) :=
    Nat.xor_lt_two_pow
      (Nat.lt_of_lt_of_le hd (Nat.pow_le_pow_right (by decide) (by omega)))
      (Nat.lt_of_lt_of_le hs (Nat.pow_le_pow_right (by decide) (by omega)))
  unfold crc32_insn
  simp only []
  rw [insn_operand w _ _ hd hs]
  exact mod2_eq_shifts w _ hx

theorem crc32_insn_lt (w d s : Nat) : crc32_insn w d s < 2 ^ 32 := bitReflect_lt _ _


/-! ## The word instruction is eight byte instructions -/

theorem crc32c_shift_xor_shiftLeft (x y k : Nat) :
    crc32c_shift (x ^^^ (y <<< (k + 1))) = crc32c_shift x ^^^ (y <<< k) := by
  apply Nat.eq_of_testBit_eq
  intro i
  simp only [testBit_crc32c_shift, Nat.testBit_xor, Nat.testBit_shiftLeft]
  have h0 : ¬ 0 ≥ k + 1 := by omega
  have e : i + 1 - (k + 1) = i - k := by omega
  by_cases hik : i ≥ k
  · have h1 : i + 1 ≥ k + 1 := by omega
    simp only [h0, h1, hik, e, decide_True, decide_False, Bool.true_and, Bool.false_and,
      Bool.xor_false]
    cases x.testBit (i + 1) <;> cases y.testBit (i - k) <;> cases x.testBit 0
      <;> cases CRC32C_REFLECTED.testBit i <;> rfl
  · have h1 : ¬ i + 1 ≥ k + 1 := by omega
    simp [h0, h1, hik]

theorem crc32c_shifts_xor_shiftLeft (k x y : Nat) :
    crc32c_shifts k (x ^^^ (y <<< k)) = crc32c_shifts k x ^^^ y := by
  induction k generalizing x with
  | zero => simp [crc32c_shifts]
  | succ k ih =>
    simp only [crc32c_shifts]
    rw [crc32c_shift_xor_shiftLeft, ih]

theorem crc32c_shifts_add (a b x : Nat) :
    crc32c_shifts (a + b) x = crc32c_shifts b (crc32c_shifts a x) := by
  induction a generalizing x with
  | zero => simp [crc32c_shifts]
  | succ a ih =>
    have e : a + 1 + b = (a + b) + 1 := by omega
    rw [e]
    simp only [crc32c_shifts]
    exact ih _

theorem leValue_cons (b : Byte) (bs : List Byte) :
    leValue (b :: bs) = b.val ^^^ (leValue bs <<< 8) := by
  apply Nat.eq_of_testBit_eq
  intro j
  have hb : b.val < 2 ^ 8 := b.isLt
  have key := Nat.testBit_mul_pow_two_add (leValue bs) hb j
  have e : leValue (b :: bs) = 2 ^ 8 * leValue bs + b.val := by
    simp only [leValue, List.foldr_cons]
    omega
  rw [e, key, Nat.testBit_xor, Nat.testBit_shiftLeft]
  by_cases hj : j < 8
  · have : ¬ j ≥ 8 := by omega
    simp [hj, this]
  · have h8 : j ≥ 8 := by omega
    rw [testBit_eq_false_of_lt hb h8]
    simp [hj, h8]

theorem leValue_lt (bs : List Byte) : leValue bs < 2 ^ (8 * bs.length) := by
  induction bs with
  | nil => simp [leValue]
  | cons b bs ih =>
    have hb : b.val < 256 := b.isLt
    have e : 2 ^ (8 * (b :: bs).length) = 256 * 2 ^ (8 * bs.length) := by
      rw [List.length_cons, Nat.mul_succ, Nat.pow_add]
      omega
    have e2 : leValue (b :: bs) = b.val + 256 * leValue bs := by
      simp [leValue]
    rw [e, e2]
    omega

/-- Right-shift steps over a little-endian word: one byte after the other. -/
theorem crc32c_shifts_leValue (bs : List Byte) (d : Nat) :
    crc32c_shifts (8 * bs.length) (d ^^^ leValue bs) = bs.foldl crc32c_spec_byte d := by
  induction bs generalizing d with
  | nil => simp [crc32c_shifts, leValue]
  | cons b bs ih =>
    have e : 8 * (b :: bs).length = 8 + 8 * bs.length := by
      rw [List.length_cons]
      omega
    rw [e, crc32c_shifts_add, leValue_cons, ← Nat.xor_assoc, crc32c_shifts_xor_shiftLeft,
      List.foldl_cons]
    exact ih _

theorem crc32b_eq_spec_byte (crc : Nat) (b : Byte) (h : crc < 2 ^ 32) :
    crc32b crc b = crc32c_spec_byte crc b := by
  have hb : b.val < 2 ^ 8 := b.isLt
  unfold crc32b crc32c_spec_byte
  rw [crc32_insn_eq_shifts, Nat.mod_eq_of_lt h, Nat.mod_eq_of_lt hb]

theorem crc32c_spec_byte_lt (crc : Nat) (b : Byte) (h : crc < 2 ^ 32) :
    crc32c_spec_byte crc b < 2 ^ 32 := by
  rw [← crc32b_eq_spec_byte crc b h]
  exact crc32_insn_lt _ _ _

theorem foldl_spec_byte_lt (bs : List Byte) (crc : Nat) (h : crc < 2 ^ 32) :
    bs.foldl crc32c_spec_byte crc < 2 ^ 32 := by
  induction bs generalizing crc with
  | nil => simpa using h
  | cons b bs ih => exact ih _ (crc32c_spec_byte_lt crc b h)

/-- One `crc32q` on the word at the head of the buffer is eight byte steps. -/
theorem crc32q_load64 (crc : Nat) (buf : List Byte) (h : crc < 2 ^ 32)
    (hlen : 8 ≤ buf.length) :
    crc32q crc (load64 buf) = (buf.take 8).foldl crc32c_spec_byte crc := by
  have hl : (buf.take 8).length = 8 := by
    rw [List.length_take]
    omega
  have hv : leValue (buf.take 8) < 2 ^ 64 := by
    have := leValue_lt (buf.take 8)
    rw [hl] at this
    exact this
  have e : load64 buf = leValue (buf.take 8) := by
    unfold load64
    exact Nat.mod_eq_of_lt hv
  unfold crc32q
  rw [crc32_insn_eq_shifts, e, Nat.mod_eq_of_lt h, Nat.mod_eq_of_lt hv,
    ← crc32c_shifts_leValue, hl]

theorem crc32c_hw_loop1_eq (buf : List Byte) (crc : Nat) (h : crc < 2 ^ 32) :
    crc32c_hw_loop1 crc buf = buf.foldl crc32c_spec_byte crc := by
  induction buf generalizing crc with
  | nil => rfl
  | cons b buf ih =>
    simp only [crc32c_hw_loop1, List.foldl_cons]
    rw [crc32b_eq_spec_byte crc b h]
    exact ih _ (crc32c_spec_byte_lt crc b h)

theorem foldl_take8 (f : Nat → Byte → Nat) (crc : Nat) (buf : List Byte) :
    (buf.drop 8).foldl f ((buf.take 8).foldl f crc) = buf.foldl f crc := by
  rw [← List.foldl_append, List.take_append_drop]

/-- The 32-byte loop followed by the byte loop computes the byte-wise fold. -/
theorem crc32c_hw_loops_eq (fuel : Nat) (crc : Nat) (buf : List Byte) (h : crc < 2 ^ 32) :
    crc32c_hw_loop1 (crc32c_hw_loop32 fuel crc buf).1 (crc32c_hw_loop32 fuel crc buf).2
      = buf.foldl crc32c_spec_byte crc := by
  induction fuel generalizing crc buf with
  | zero => exact crc32c_hw_loop1_eq buf crc h
  | succ fuel ih =>
    unfold crc32c_hw_loop32
    by_cases hlen : 32 ≤ buf.length
    · simp only [hlen, if_true]
      have l1 : 8 ≤ (buf.drop 8).length := by rw [List.length_drop]; omega
      have l2 : 8 ≤ (buf.drop 16).length := by rw [List.length_drop]; omega
      have l3 : 8 ≤ (buf.drop 24).length := by rw [List.length_drop]; omega
      have c0 := foldl_spec_byte_lt (buf.take 8) crc h
      have c1 := foldl_spec_byte_lt ((buf.drop 8).take 8) _ c0
      have c2 := foldl_spec_byte_lt ((buf.drop 16).take 8) _ c1
      have c3 := foldl_spec_byte_lt ((buf.drop 24).take 8) _ c2
      rw [crc32q_load64 crc buf h (by omega), crc32q_load64 _ _ c0 l1,
        crc32q_load64 _ _ c1 l2, crc32q_load64 _ _ c2 l3, ih _ _ c3]
      have d1 : buf.drop 16 = (buf.drop 8).drop 8 := by rw [List.drop_drop]
      have d2 : buf.drop 24 = (buf.drop 16).drop 8 := by rw [List.drop_drop]
      have d3 : buf.drop 32 = (buf.drop 24).drop 8 := by rw [List.drop_drop]
      rw [d3, foldl_take8, d2, foldl_take8, d1, foldl_take8, foldl_take8]
    · simp only [hlen, if_false]
      exact crc32c_hw_loop1_eq buf crc h

/-- The 32-byte loop stops only when fewer than 32 bytes remain: the fuel given
by `crc32c_hw_run` never runs out. -/
theorem crc32c_hw_loop32_rest (fuel : Nat) (crc : Nat) (buf : List Byte)
    (h : buf.length ≤ fuel) : (crc32c_hw_loop32 fuel crc buf).2.length < 32 := by
  induction fuel generalizing crc buf with
  | zero =>
    simp only [crc32c_hw_loop32]
    omega
  | succ fuel ih =>
    unfold crc32c_hw_loop32
    by_cases hlen : 32 ≤ buf.length
    · simp only [hlen, if_true]
      apply ih
      rw [List.length_drop]
      omega
    · simp only [hlen, if_false]
      omega

theorem complement32 (x : Nat) (h : x < 2 ^ 32) : 0xffffffff - x % 2 ^ 32 = x ^^^ 0xFFFFFFFF := by
  rw [Nat.mod_eq_of_lt h]
  apply Nat.eq_of_testBit_eq
  intro i
  have e1 : (0xffffffff : Nat) - x = 2 ^ 32 - (x + 1) := by omega
  have e2 : (0xFFFFFFFF : Nat) = 2 ^ 32 - 1 := by decide
  rw [e1, Nat.testBit_two_pow_sub_succ h, Nat.testBit_xor, e2, Nat.testBit_two_pow_sub_one]
  by_cases hi : i < 32
  · simp [hi]
  · simp [hi, testBit_eq_false_of_lt h (by omega : 32 ≤ i)]

theorem crc32c_hw_run_eq_spec (buf : List Byte) : crc32c_hw_run buf = crc32c_spec buf := by
  unfold crc32c_hw_run crc32c_spec
  simp only []
  rw [crc32c_hw_loops_eq _ _ _ (by decide)]
  exact complement32 _ (foldl_spec_byte_lt _ _ (by decide))



/-! ## The checksum engine: claims -/

/-- C1: for every byte sequence `b` of any length, stored at an address that
satisfies the assertion of `crc32c_hw`, `crc32c_hw(b)` is the standard CRC-32C of `b`:
register `0xFFFFFFFF`, every byte xored into the low 8 bits followed by 8 right-shift
steps that xor `0x82F63B78` in when the bit shifted out is 1, and the bitwise
complement of the register at the end; `0x82F63B78` is the bit reflection of
`0x1EDC6F41`. -/
theorem crc32c_hw_is_crc32c (addr : Nat) (b : List Byte) (h : addr % 8 = 0) :
    crc32c_hw addr b = some (crc32c_spec b) ∧ bitReflect 32 0x1EDC6F41 = CRC32C_REFLECTED := by
  refine ⟨?_, by decide⟩
  unfold crc32c_hw
  rw [if_pos h, crc32c_hw_run_eq_spec]

/-- An instance: the three bytes `123` in a buffer at address 4096. -/
theorem crc32c_hw_is_crc32c_witness :
    4096 % 8 = 0 ∧ crc32c_hw 4096 [49, 50, 51] = some (crc32c_spec [49, 50, 51]) :=
  ⟨by decide, (crc32c_hw_is_crc32c 4096 [49, 50, 51] (by decide)).1⟩

/-- C2: `crc32c_hw` applied to the zero-length byte sequence returns `0x00000000`. -/
theorem crc32c_hw_empty (addr : Nat) (h : addr % 8 = 0) : crc32c_hw addr [] = some 0 := by
  unfold crc32c_hw
  rw [if_pos h]
  rfl

/-- An instance: an empty buffer at address 4096. -/
theorem crc32c_hw_empty_witness : 4096 % 8 = 0 ∧ crc32c_hw 4096 [] = some 0 :=
  ⟨by decide, crc32c_hw_empty 4096 (by decide)⟩

/-! ## `check_crcfile`: the loop -/

theorem check_line_none (fs : FileSystem) (st : CheckState) (lb : List Byte)
    (h : sscanf_line lb = none) : check_line fs st lb = st := by
  unfold check_line
  rw [h]

theorem check_line_some (fs : FileSystem) (st : CheckState) (lb : List Byte) (r : Record)
    (h : sscanf_line lb = some r) :
    check_line fs st lb = check_bump st (spec_outcome fs r) r.filename := by
  unfold check_line spec_outcome check_bump
  rw [h]
  simp only []
  cases hl : fs.lookup r.filename with
  | none => simp
  | some sb =>
    simp only []
    by_cases hm : u64 sb.st_mtime ≠ r.mtime
    · simp [hm]
    · simp only [hm, if_false]
      cases hc : calc_file_crc fs r.filename with
      | none => simp
      | some c =>
        simp only []
        by_cases he : r.crc = c
        · have he2 : ¬ c ≠ r.crc := by simp [he]
          simp [he]
        · have he2 : c ≠ r.crc := fun h => he h.symm
          simp [he, he2]


/-- The records seen by the loop of `check_crcfile`, one after the other. -/
theorem check_fold (fs : FileSystem) (lines : List (List Byte)) (st : CheckState) :
    lines.foldl (check_line fs) st =
      (lines.filterMap sscanf_line).foldl
        (fun s r => check_bump s (spec_outcome fs r) r.filename) st := by
  induction lines generalizing st with
  | nil => rfl
  | cons lb lines ih =>
    rw [List.foldl_cons]
    cases h : sscanf_line lb with
    | none =>
      rw [check_line_none fs st lb h, List.filterMap_cons_none h]
      exact ih st
    | some r =>
      rw [check_line_some fs st lb r h, List.filterMap_cons_some h, List.foldl_cons]
      exact ih _

theorem check_bump_fold (fs : FileSystem) (recs : List Record) (st : CheckState) :
    let st1 := recs.foldl (fun s r => check_bump s (spec_outcome fs r) r.filename) st
    st1.n_nfound = st.n_nfound + recs.countP (fun r => spec_outcome fs r = Outcome.NotFound) ∧
    st1.n_changed = st.n_changed + recs.countP (fun r => spec_outcome fs r = Outcome.Modified) ∧
    st1.n_broken = st.n_broken + recs.countP (fun r => spec_outcome fs r = Outcome.Broken) ∧
    st1.n_err = st.n_err + recs.countP (fun r => spec_outcome fs r = Outcome.Error) ∧
    st1.report = st.report ++ recs.map (fun r => (spec_outcome fs r, r.filename)) := by
  induction recs generalizing st with
  | nil => simp
  | cons r recs ih =>
    have h := ih (check_bump st (spec_outcome fs r) r.filename)
    simp only [List.foldl_cons, List.countP_cons, List.map_cons] at h ⊢
    obtain ⟨h1, h2, h3, h4, h5⟩ := h
    refine ⟨?_, ?_, ?_, ?_, ?_⟩
    · rw [h1]; simp only [check_bump, decide_eq_true_eq]; omega
    · rw [h2]; simp only [check_bump, decide_eq_true_eq]; omega
    · rw [h3]; simp only [check_bump, decide_eq_true_eq]; omega
    · rw [h4]; simp only [check_bump, decide_eq_true_eq]; omega
    · rw [h5]; simp [check_bump]

/-- The final state of `check_crcfile` on a manifest that can be opened. -/
theorem check_crcfile_state (fs : FileSystem) (content : List Byte)
    (h : fs.crcs = some content) :
    (check_crcfile fs).2 =
      (manifest_records content).foldl
        (fun s r => check_bump s (spec_outcome fs r) r.filename) check_init := by
  unfold check_crcfile manifest_records
  rw [h]
  simp only []
  rw [check_fold]
  split <;> rfl

/-- The counters of `check_crcfile` fit in a C `int` when the manifest has fewer than
`2^31` lines. -/
theorem check_counters_le (fs : FileSystem) (content : List Byte)
    (h : fs.crcs = some content) :
    (check_crcfile fs).2.n_nfound + (check_crcfile fs).2.n_changed
      + (check_crcfile fs).2.n_broken + (check_crcfile fs).2.n_err
      ≤ (fgets_lines content).length := by
  rw [check_crcfile_state fs content h]
  obtain ⟨h1, h2, h3, h4, h5⟩ := check_bump_fold fs (manifest_records content) check_init
  have hlen : (manifest_records content).length ≤ (fgets_lines content).length :=
    List.length_filterMap_le _ _
  have hr := congrArg List.length h5
  simp only [check_init, List.nil_append, List.length_map] at hr
  rw [h1, h2, h3, h4]
  simp only [check_init, Nat.zero_add]
  generalize manifest_records content = recs at hlen
  clear h1 h2 h3 h4 h5 hr
  suffices hs : recs.countP (fun r => spec_outcome fs r = Outcome.NotFound)
      + recs.countP (fun r => spec_outcome fs r = Outcome.Modified)
      + recs.countP (fun r => spec_outcome fs r = Outcome.Broken)
      + recs.countP (fun r => spec_outcome fs r = Outcome.Error) ≤ recs.length by omega
  clear hlen
  induction recs with
  | nil => simp
  | cons r recs ih =>
    simp only [List.countP_cons, List.length_cons]
    cases spec_outcome fs r <;> simp <;> omega

/-! ## `check_crcfile`: claims -/

/-- C4: for every record that `sscanf` fills from a manifest line and every file
system, the loop body of `check_crcfile` reports exactly one outcome `o` for it:
`NotFound` iff `stat` of the file name fails; otherwise `Modified` iff the current
time differs from the recorded one, and then `calc_file_crc` is not called (the bytes
of the file are not read); otherwise `Error` iff `calc_file_crc` fails; otherwise
`Broken` iff the recomputed checksum differs from the recorded one, and `Ok` iff
it is equal. -/
theorem check_crcfile_outcome (fs : FileSystem) (st : CheckState) (lb : List Byte)
    (r : Record) (hr : sscanf_line lb = some r) :
    ∃ o : Outcome,
      (check_line fs st lb).report = st.report ++ [(o, r.filename)] ∧
      (o = Outcome.NotFound ↔ fs.lookup r.filename = none) ∧
      ∀ sb, fs.lookup r.filename = some sb →
        (o = Outcome.Modified ↔ u64 sb.st_mtime ≠ r.mtime) ∧
        (u64 sb.st_mtime ≠ r.mtime → (check_line fs st lb).calc_calls = st.calc_calls) ∧
        (u64 sb.st_mtime = r.mtime →
          (o = Outcome.Error ↔ calc_file_crc fs r.filename = none) ∧
          ∀ c, calc_file_crc fs r.filename = some c →
            (o = Outcome.Broken ↔ c ≠ r.crc) ∧ (o = Outcome.Ok ↔ c = r.crc)) := by
  refine ⟨spec_outcome fs r, ?_, ?_, ?_⟩
  · rw [check_line_some fs st lb r hr]
    rfl
  · unfold spec_outcome
    cases hl : fs.lookup r.filename with
    | none => simp
    | some sb =>
      simp only []
      by_cases hm : u64 sb.st_mtime ≠ r.mtime
      · simp [hm]
      · simp only [hm, if_false]
        cases hc : calc_file_crc fs r.filename with
        | none => simp
        | some c => by_cases he : c ≠ r.crc <;> simp [he]
  · intro sb hl
    rw [check_line_some fs st lb r hr]
    unfold spec_outcome check_bump
    rw [hl]
    simp only []
    by_cases hm : u64 sb.st_mtime ≠ r.mtime
    · simp [hm]
    · simp only [hm, if_false]
      have hm2 : u64 sb.st_mtime = r.mtime := by
        by_contra hne
        exact hm hne
      cases hc : calc_file_crc fs r.filename with
      | none => simp [hm2]
      | some c =>
        by_cases he : c = r.crc
        · simp [he, hm2]
        · simp [he, hm2]

/-- An instance: the manifest line of the file `a` in the directory `fs_a`. -/
theorem check_crcfile_outcome_witness :
    sscanf_line line_a = some ⟨0xa016d052, 7, name_a⟩ ∧
    ∃ o : Outcome,
      (check_line fs_a check_init line_a).report = check_init.report ++ [(o, name_a)] ∧
      (o = Outcome.NotFound ↔ fs_a.lookup name_a = none) ∧
      ∀ sb, fs_a.lookup name_a = some sb →
        (o = Outcome.Modified ↔ u64 sb.st_mtime ≠ 7) ∧
        (u64 sb.st_mtime ≠ 7 →
          (check_line fs_a check_init line_a).calc_calls = check_init.calc_calls) ∧
        (u64 sb.st_mtime = 7 →
          (o = Outcome.Error ↔ calc_file_crc fs_a name_a = none) ∧
          ∀ c, calc_file_crc fs_a name_a = some c →
            (o = Outcome.Broken ↔ c ≠ 0xa016d052) ∧ (o = Outcome.Ok ↔ c = 0xa016d052)) :=
  ⟨by decide!, check_crcfile_outcome fs_a check_init line_a ⟨0xa016d052, 7, name_a⟩ (by decide!)⟩

/-- C5: `check_crcfile` returns 2 if and only if the manifest cannot be opened; when
it can be opened, each of the four counters is the number of parsed records with
that outcome, and the function returns 0 if and only if the four counters are zero,
and 1 otherwise. -/
theorem check_crcfile_return (fs : FileSystem) :
    ((check_crcfile fs).1 = 2 ↔ fs.crcs = none) ∧
    ∀ content, fs.crcs = some content →
      (check_crcfile fs).2.n_nfound
        = (manifest_records content).countP (fun r => spec_outcome fs r = Outcome.NotFound) ∧
      (check_crcfile fs).2.n_changed
        = (manifest_records content).countP (fun r => spec_outcome fs r = Outcome.Modified) ∧
      (check_crcfile fs).2.n_broken
        = (manifest_records content).countP (fun r => spec_outcome fs r = Outcome.Broken) ∧
      (check_crcfile fs).2.n_err
        = (manifest_records content).countP (fun r => spec_outcome fs r = Outcome.Error) ∧
      ((check_crcfile fs).1 = 0 ↔
        ((check_crcfile fs).2.n_nfound = 0 ∧ (check_crcfile fs).2.n_changed = 0 ∧
          (check_crcfile fs).2.n_broken = 0 ∧ (check_crcfile fs).2.n_err = 0)) ∧
      ((check_crcfile fs).1 = 1 ↔
        ¬ ((check_crcfile fs).2.n_nfound = 0 ∧ (check_crcfile fs).2.n_changed = 0 ∧
          (check_crcfile fs).2.n_broken = 0 ∧ (check_crcfile fs).2.n_err = 0)) := by
  constructor
  · unfold check_crcfile
    cases h : fs.crcs with
    | none => simp
    | some content =>
      simp only []
      split <;> simp
  · intro content h
    have hst := check_crcfile_state fs content h
    obtain ⟨h1, h2, h3, h4, _⟩ := check_bump_fold fs (manifest_records content) check_init
    simp only [check_init, Nat.zero_add] at h1 h2 h3 h4
    refine ⟨by rw [hst]; exact h1, by rw [hst]; exact h2, by rw [hst]; exact h3,
      by rw [hst]; exact h4, ?_, ?_⟩
    · unfold check_crcfile
      rw [h]
      simp only []
      split
      · rename_i hz
        simp [hz]
      · rename_i hz
        simp only [Nat.one_ne_zero, false_iff]
        exact hz
    · unfold check_crcfile
      rw [h]
      simp only []
      split
      · rename_i hz
        simp [hz]
      · rename_i hz
        simp only [true_iff]
        exact hz


/-- An instance: the directory `fs_a_tracked`, whose manifest has the line of the
file `a`; the check returns 0. -/
theorem check_crcfile_return_witness :
    fs_a_tracked.crcs = some line_a ∧ (check_crcfile fs_a_tracked).1 = 0 ∧
      (check_crcfile fs_a_tracked).2.n_broken
        = (manifest_records line_a).countP
            (fun r => spec_outcome fs_a_tracked r = Outcome.Broken) :=
  ⟨rfl, by decide!, ((check_crcfile_return fs_a_tracked).2 line_a rfl).2.2.1⟩

/-! ## The change-detection index -/

theorem load_crcfile_loop_eq (fs : FileSystem) (n : Nat) (lines : List (List Byte))
    (crcs : List crc_entry) (h : crcs.length + lines.length ≤ n) :
    load_crcfile_loop fs n lines crcs
      = crcs ++ (lines.filterMap sscanf_line).filterMap (index_entry fs) := by
  induction lines generalizing crcs with
  | nil => simp [load_crcfile_loop]
  | cons lb lines ih =>
    have hl : crcs.length + lines.length ≤ n := by
      simp only [List.length_cons] at h
      omega
    unfold load_crcfile_loop
    cases hs : sscanf_line lb with
    | none =>
      simp only []
      rw [ih crcs hl, List.filterMap_cons_none hs]
    | some r =>
      simp only []
      rw [List.filterMap_cons_some hs]
      cases hk : fs.lookup r.filename with
      | none =>
        have he : index_entry fs r = none := by simp [index_entry, hk]
        simp only []
        rw [ih crcs hl, List.filterMap_cons_none he]
      | some sb =>
        have he : index_entry fs r = some ⟨sb.st_ino, r.mtime, r.crc⟩ := by
          simp [index_entry, hk]
        simp only []
        rw [List.filterMap_cons_some he]
        split
        · rename_i hbrk
          have h0 : lines = [] := by
            simp only [List.length_append, List.length_cons, List.length_nil] at hbrk h
            apply List.eq_nil_of_length_eq_zero
            omega
          subst h0
          simp
        · rw [ih _ (by simp only [List.length_append, List.length_cons, List.length_nil,
            List.length_cons] at h ⊢; omega)]
          simp

/-- The array built by `load_crcfile`: one entry for each record whose file
exists, in manifest order. -/
theorem load_crcfile_eq (fs : FileSystem) (content : List Byte) (h : fs.crcs = some content) :
    load_crcfile fs = some ((manifest_records content).filterMap (index_entry fs)) := by
  unfold load_crcfile manifest_records
  rw [h]
  simp only []
  rw [load_crcfile_loop_eq fs _ _ [] (by simp)]
  simp

theorem find_old_mem (es : List crc_entry) (ino mtime : Nat) (e : crc_entry)
    (h : find_old es ino mtime = some e) : e ∈ es ∧ e.ino = ino ∧ e.mtime = mtime := by
  induction es with
  | nil => simp [find_old] at h
  | cons old olds ih =>
    unfold find_old at h
    by_cases h0 : old.ino = 0
    · simp [h0] at h
    · simp only [h0, if_false] at h
      by_cases hm : old.ino = ino ∧ old.mtime = mtime
      · simp only [hm, and_self, if_true, Option.some.injEq] at h
        subst h
        exact ⟨List.mem_cons_self _ _, hm.1, hm.2⟩
      · simp only [hm, if_false] at h
        have := ih h
        exact ⟨List.mem_cons_of_mem _ this.1, this.2⟩

theorem find_old_of_mem (es : List crc_entry) (ino mtime : Nat)
    (hnz : ∀ e ∈ es, e.ino ≠ 0) (e : crc_entry) (he : e ∈ es)
    (hi : e.ino = ino) (hm : e.mtime = mtime) :
    ∃ e1, find_old es ino mtime = some e1 := by
  induction es with
  | nil => simp at he
  | cons old olds ih =>
    unfold find_old
    have h0 : old.ino ≠ 0 := hnz old (List.mem_cons_self _ _)
    simp only [h0, if_false]
    by_cases hmatch : old.ino = ino ∧ old.mtime = mtime
    · exact ⟨old, by simp [hmatch]⟩
    · simp only [hmatch, if_false]
      rcases List.mem_cons.1 he with h1 | h1
      · subst h1
        exact absurd ⟨hi, hm⟩ hmatch
      · exact ih (fun e2 h2 => hnz e2 (List.mem_cons_of_mem _ h2)) h1

theorem mem_index_entries (fs : FileSystem) (recs : List Record) (e : crc_entry) :
    e ∈ recs.filterMap (index_entry fs) ↔
      ∃ r ∈ recs, ∃ sb, fs.lookup r.filename = some sb ∧
        e = ⟨sb.st_ino, r.mtime, r.crc⟩ := by
  rw [List.mem_filterMap]
  constructor
  · rintro ⟨r, hr, he⟩
    refine ⟨r, hr, ?_⟩
    unfold index_entry at he
    cases hk : fs.lookup r.filename with
    | none => simp [hk] at he
    | some sb =>
      simp only [hk, Option.some.injEq] at he
      exact ⟨sb, rfl, he.symm⟩
  · rintro ⟨r, hr, sb, hk, he⟩
    refine ⟨r, hr, ?_⟩
    simp [index_entry, hk, he]

theorem load_crcfile_previous (fs : FileSystem) :
    ∀ e, (∃ es, load_crcfile fs = some es ∧ e ∈ es) ↔
      e ∈ (previous_records fs).filterMap (index_entry fs) := by
  intro e
  unfold previous_records
  cases h : fs.crcs with
  | none => simp [load_crcfile, h]
  | some content =>
    rw [load_crcfile_eq fs content h]
    simp


/-- The scan of the index: what it returns comes from a record whose file exists, and
when no indexed file has inode 0 every such record is found. -/
theorem find_old_crcs_spec (fs : FileSystem) (ino mtime : Nat) :
    (∀ e, find_old_crcs (load_crcfile fs) ino mtime = some e →
      ∃ r ∈ previous_records fs, ∃ sb, fs.lookup r.filename = some sb ∧
        sb.st_ino = ino ∧ r.mtime = mtime ∧ e.crc = r.crc ∧ e.mtime = r.mtime) ∧
    ((∀ r ∈ previous_records fs, ∀ sb, fs.lookup r.filename = some sb → sb.st_ino ≠ 0) →
      ∀ r ∈ previous_records fs, ∀ sb, fs.lookup r.filename = some sb →
        sb.st_ino = ino → r.mtime = mtime →
        ∃ e, find_old_crcs (load_crcfile fs) ino mtime = some e) := by
  constructor
  · intro e he
    unfold find_old_crcs at he
    cases hl : load_crcfile fs with
    | none => simp [hl] at he
    | some es =>
      simp only [hl] at he
      obtain ⟨hmem, hi, hm⟩ := find_old_mem es ino mtime e he
      have hin := (load_crcfile_previous fs e).1 ⟨es, hl, hmem⟩
      obtain ⟨r, hr, sb, hk, heq⟩ := (mem_index_entries fs _ e).1 hin
      subst heq
      exact ⟨r, hr, sb, hk, hi, hm, rfl, rfl⟩
  · intro hnz r hr sb hk hi hm
    have hin : (⟨sb.st_ino, r.mtime, r.crc⟩ : crc_entry)
        ∈ (previous_records fs).filterMap (index_entry fs) :=
      (mem_index_entries fs _ _).2 ⟨r, hr, sb, hk, rfl⟩
    obtain ⟨es, hl, hmem⟩ := (load_crcfile_previous fs _).2 hin
    have hnz2 : ∀ e ∈ es, e.ino ≠ 0 := by
      intro e he
      have := (load_crcfile_previous fs e).1 ⟨es, hl, he⟩
      obtain ⟨r2, hr2, sb2, hk2, heq⟩ := (mem_index_entries fs _ e).1 this
      subst heq
      exact hnz r2 hr2 sb2 hk2
    obtain ⟨e1, h1⟩ := find_old_of_mem es ino mtime hnz2 _ hmem hi hm
    exact ⟨e1, by simp [find_old_crcs, hl, h1]⟩

/-! ## The change-detection index: claims -/

/-- C9, as stated, fails: in `fs_ino0` the manifest has a parsable record for the
file `b`, which exists with inode 5 and the recorded time 7, yet the index scan
for (5, 7) reports no hit, because the entry of the file `a`, of inode 0, comes
first and ends the scan. -/
theorem index_hit_iff_counterexample :
    (∃ r ∈ previous_records fs_ino0, ∃ sb, fs_ino0.lookup r.filename = some sb ∧
        sb.st_ino = 5 ∧ r.mtime = 7) ∧
      find_old_crcs (load_crcfile fs_ino0) 5 7 = none := by
  refine ⟨⟨⟨2, 7, name_b⟩, by decide!, file_a, by decide!, rfl, rfl⟩, by decide!⟩

/-- C9, amended: when no file named by a parsable record of the previous manifest
has inode number 0, then for every queried pair (inode, modTime) the index built by
`load_crcfile` and scanned in `update_crcfile` reports a hit if and only if some
parsable record names a file that currently exists, has that inode, and whose
recorded modTime is the queried one; on a hit (with or without the condition on
inode 0) the checksum returned is the one recorded for such a record; records whose
file no longer exists never produce a hit. -/
theorem index_hit_iff (fs : FileSystem) (ino mtime : Nat)
    (hnz : ∀ r ∈ previous_records fs, ∀ sb, fs.lookup r.filename = some sb →
      sb.st_ino ≠ 0) :
    ((∃ e, find_old_crcs (load_crcfile fs) ino mtime = some e) ↔
      ∃ r ∈ previous_records fs, ∃ sb, fs.lookup r.filename = some sb ∧
        sb.st_ino = ino ∧ r.mtime = mtime) ∧
    (∀ e, find_old_crcs (load_crcfile fs) ino mtime = some e →
      ∃ r ∈ previous_records fs, ∃ sb, fs.lookup r.filename = some sb ∧
        sb.st_ino = ino ∧ r.mtime = mtime ∧ e.crc = r.crc) := by
  have hs := find_old_crcs_spec fs ino mtime
  refine ⟨⟨?_, ?_⟩, ?_⟩
  · rintro ⟨e, he⟩
    obtain ⟨r, hr, sb, hk, hi, hm, _, _⟩ := hs.1 e he
    exact ⟨r, hr, sb, hk, hi, hm⟩
  · rintro ⟨r, hr, sb, hk, hi, hm⟩
    exact hs.2 hnz r hr sb hk hi hm
  · intro e he
    obtain ⟨r, hr, sb, hk, hi, hm, hc, _⟩ := hs.1 e he
    exact ⟨r, hr, sb, hk, hi, hm, hc⟩

/-- The records of the manifest of `fs_a_tracked`. -/
theorem previous_records_fs_a_tracked :
    previous_records fs_a_tracked = [⟨0xa016d052, 7, name_a⟩] := by decide!

/-- No file recorded in the manifest of `fs_a_tracked` has inode 0. -/
theorem fs_a_tracked_inodes (r : Record) (hr : r ∈ previous_records fs_a_tracked)
    (sb : File) (hk : fs_a_tracked.lookup r.filename = some sb) : sb.st_ino ≠ 0 := by
  rw [previous_records_fs_a_tracked] at hr
  simp only [List.mem_singleton] at hr
  subst hr
  have h2 : fs_a_tracked.lookup name_a = some file_a := by decide!
  have h3 : sb = file_a := by
    have h4 : fs_a_tracked.lookup name_a = some sb := hk
    rw [h2] at h4
    exact (Option.some.inj h4).symm
  subst h3
  decide

/-- An instance: the index of `fs_a_tracked` queried for inode 5 and time 7. -/
theorem index_hit_iff_witness :
    (∀ r ∈ previous_records fs_a_tracked, ∀ sb,
        fs_a_tracked.lookup r.filename = some sb → sb.st_ino ≠ 0) ∧
      ((∃ e, find_old_crcs (load_crcfile fs_a_tracked) 5 7 = some e) ↔
        ∃ r ∈ previous_records fs_a_tracked, ∃ sb,
          fs_a_tracked.lookup r.filename = some sb ∧ sb.st_ino = 5 ∧ r.mtime = 7) :=
  ⟨fs_a_tracked_inodes, (index_hit_iff fs_a_tracked 5 7 fs_a_tracked_inodes).1⟩


/-! ## The shape of the lines accepted by `sscanf` -/

theorem skip_space_split (s : List Byte) :
    ∃ ws, all_space ws ∧ s = ws ++ skip_space s :=
  ⟨s.takeWhile isspace, fun _ hc => List.mem_takeWhile_imp hc,
    (List.takeWhile_append_dropWhile isspace s).symm⟩

theorem scan_sign_split (s : List Byte) :
    ∃ sg, opt_sign sg ∧ s = sg ++ (scan_sign s).2 := by
  cases s with
  | nil => exact ⟨[], Or.inl rfl, rfl⟩
  | cons c t =>
    by_cases h1 : c.val = 45
    · have e : scan_sign (c :: t) = (true, t) := by simp [scan_sign, h1]
      have hc : c = (45 : Byte) := Fin.ext h1
      rw [e, hc]
      exact ⟨[45], Or.inr (Or.inl rfl), rfl⟩
    · by_cases h2 : c.val = 43
      · have e : scan_sign (c :: t) = (false, t) := by simp [scan_sign, h1, h2]
        have hc : c = (43 : Byte) := Fin.ext h2
        rw [e, hc]
        exact ⟨[43], Or.inr (Or.inr rfl), rfl⟩
      · have e : scan_sign (c :: t) = (false, c :: t) := by simp [scan_sign, h1, h2]
        rw [e]
        exact ⟨[], Or.inl rfl, rfl⟩

theorem scan_zero_split (base : Nat) (s : List Byte) :
    ((scan_zero base s).1 = 0 ∧ s = (scan_zero base s).2) ∨
    ((scan_zero base s).1 = 1 ∧ s = (48 : Byte) :: (scan_zero base s).2) ∨
    ((scan_zero base s).1 = 1 ∧ base = 16 ∧
      ∃ x : Byte, (x.val = 120 ∨ x.val = 88) ∧ s = (48 : Byte) :: x :: (scan_zero base s).2) := by
  cases s with
  | nil => exact Or.inl ⟨rfl, rfl⟩
  | cons c t =>
    by_cases h1 : c.val = 48
    · have hc : c = (48 : Byte) := Fin.ext h1
      cases t with
      | nil =>
        have e : scan_zero base [c] = (1, []) := by simp [scan_zero, h1]
        rw [e, hc]
        exact Or.inr (Or.inl ⟨rfl, rfl⟩)
      | cons x u =>
        by_cases hx : base = 16 ∧ (x.val = 120 ∨ x.val = 88)
        · have e : scan_zero base (c :: x :: u) = (1, u) := by simp [scan_zero, h1, hx]
          rw [e, hc]
          exact Or.inr (Or.inr ⟨rfl, hx.1, x, hx.2, rfl⟩)
        · have e : scan_zero base (c :: x :: u) = (1, x :: u) := by
            simp only [scan_zero, h1, if_true, hx, if_false]
          rw [e, hc]
          exact Or.inr (Or.inl ⟨rfl, rfl⟩)
    · have e : scan_zero base (c :: t) = (0, c :: t) := by simp [scan_zero, h1]
      rw [e]
      exact Or.inl ⟨rfl, rfl⟩

theorem scan_digits_split (base : Nat) (s : List Byte) (acc n : Nat) :
    ∃ ds, s = ds ++ (scan_digits base s acc n).2.2 ∧
      (∀ c ∈ ds, (digitval base c).isSome = true) ∧
      (scan_digits base s acc n).2.1 = n + ds.length := by
  induction s generalizing acc n with
  | nil => exact ⟨[], rfl, by simp, rfl⟩
  | cons c t ih =>
    unfold scan_digits
    cases hd : digitval base c with
    | none => exact ⟨[], rfl, by simp, rfl⟩
    | some d =>
      obtain ⟨ds, h1, h2, h3⟩ := ih (acc * base + d) (n + 1)
      refine ⟨c :: ds, ?_, ?_, ?_⟩
      · simp only [List.cons_append]
        rw [← h1]
      · intro x hx
        rcases List.mem_cons.1 hx with h | h
        · subst h
          simp [hd]
        · exact h2 x h
      · simp only [h3, List.length_cons]
        omega

theorem scan_unsigned_rest (base : Nat) (s : List Byte) (v : Nat) (t : List Byte)
    (h : scan_unsigned base s = some (v, t)) :
    (scan_zero base (scan_sign (skip_space s)).2).1
        + (scan_digits base (scan_zero base (scan_sign (skip_space s)).2).2 0 0).2.1 ≠ 0 ∧
      t = (scan_digits base (scan_zero base (scan_sign (skip_space s)).2).2 0 0).2.2 := by
  unfold scan_unsigned at h
  simp only [] at h
  split at h
  · exact absurd h (by simp)
  · rename_i hne
    refine ⟨hne, ?_⟩
    split at h
    · exact (congrArg Prod.snd (Option.some.inj h)).symm
    · split at h
      · exact (congrArg Prod.snd (Option.some.inj h)).symm
      · exact (congrArg Prod.snd (Option.some.inj h)).symm

theorem hexval_48 : (hexval (48 : Byte)).isSome = true := by decide

theorem decval_48 : (decval (48 : Byte)).isSome = true := by decide

theorem scan_unsigned_hex_split (s : List Byte) (v : Nat) (t : List Byte)
    (h : scan_unsigned 16 s = some (v, t)) :
    ∃ ws sg hex, s = ws ++ sg ++ hex ++ t ∧ all_space ws ∧ opt_sign sg ∧ hex_number hex := by
  obtain ⟨hne, ht⟩ := scan_unsigned_rest 16 s v t h
  obtain ⟨ws, hws, e1⟩ := skip_space_split s
  obtain ⟨sg, hsg, e2⟩ := scan_sign_split (skip_space s)
  obtain ⟨ds, e4, hds, hn⟩ :=
    scan_digits_split 16 (scan_zero 16 (scan_sign (skip_space s)).2).2 0 0
  have hds2 : all_hex ds := fun c hc => by
    have := hds c hc
    simpa [digitval] using this
  rw [← ht] at e4
  rcases scan_zero_split 16 (scan_sign (skip_space s)).2 with ⟨hz, e3⟩ | ⟨hz, e3⟩ | ⟨hz, _, x, hx, e3⟩
  · refine ⟨ws, sg, ds, ?_, hws, hsg, Or.inl ⟨?_, hds2⟩⟩
    · rw [e1] ; rw [e2, e3, e4] ; simp [List.append_assoc]
    · intro h0
      subst h0
      rw [hz, hn] at hne
      simp at hne
  · refine ⟨ws, sg, 48 :: ds, ?_, hws, hsg, Or.inl ⟨by simp, ?_⟩⟩
    · rw [e1, e2, e3, e4] ; simp [List.append_assoc]
    · intro c hc
      rcases List.mem_cons.1 hc with h1 | h1
      · subst h1
        exact hexval_48
      · exact hds2 c h1
  · refine ⟨ws, sg, 48 :: x :: ds, ?_, hws, hsg, Or.inr ⟨x, ds, hx, rfl, hds2⟩⟩
    rw [e1, e2, e3, e4] ; simp [List.append_assoc]

theorem scan_unsigned_dec_split (s : List Byte) (v : Nat) (t : List Byte)
    (h : scan_unsigned 10 s = some (v, t)) :
    ∃ ws sg dec, s = ws ++ sg ++ dec ++ t ∧ all_space ws ∧ opt_sign sg ∧
      dec ≠ [] ∧ all_dec dec := by
  obtain ⟨hne, ht⟩ := scan_unsigned_rest 10 s v t h
  obtain ⟨ws, hws, e1⟩ := skip_space_split s
  obtain ⟨sg, hsg, e2⟩ := scan_sign_split (skip_space s)
  obtain ⟨ds, e4, hds, hn⟩ :=
    scan_digits_split 10 (scan_zero 10 (scan_sign (skip_space s)).2).2 0 0
  have hds2 : all_dec ds := fun c hc => by
    have := hds c hc
    simpa [digitval] using this
  rw [← ht] at e4
  rcases scan_zero_split 10 (scan_sign (skip_space s)).2 with ⟨hz, e3⟩ | ⟨hz, e3⟩ | ⟨_, hb, _⟩
  · refine ⟨ws, sg, ds, ?_, hws, hsg, ?_, hds2⟩
    · rw [e1, e2, e3, e4] ; simp [List.append_assoc]
    · intro h0
      subst h0
      rw [hz, hn] at hne
      simp at hne
  · refine ⟨ws, sg, 48 :: ds, ?_, hws, hsg, by simp, ?_⟩
    · rw [e1, e2, e3, e4] ; simp [List.append_assoc]
    · intro c hc
      rcases List.mem_cons.1 hc with h1 | h1
      · subst h1
        exact decval_48
      · exact hds2 c h1
  · exact absurd hb (by decide)

theorem scan_set_split (w : Nat) (s m t : List Byte) (h : scan_set w s = some (m, t)) :
    s = m ++ t ∧ m ≠ [] ∧ m.length ≤ w ∧ ∀ c ∈ m, c.val ≠ 10 := by
  unfold scan_set at h
  simp only [] at h
  split at h
  · exact absurd h (by simp)
  · rename_i hne
    have hm : m = (s.takeWhile (fun c => decide (c.val ≠ 10))).take w :=
      (congrArg Prod.fst (Option.some.inj h)).symm
    have ht : t = s.drop m.length := by
      rw [hm]
      exact (congrArg Prod.snd (Option.some.inj h)).symm
    have hpre : m <+: s := by
      rw [hm]
      exact (List.take_prefix _ _).trans (List.takeWhile_prefix _)
    refine ⟨?_, by rw [hm]; exact hne, ?_, ?_⟩
    · rw [ht]
      obtain ⟨u, hu⟩ := hpre
      rw [← hu]
      simp
    · rw [hm, List.length_take]
      exact Nat.min_le_left _ _
    · intro c hc
      rw [hm] at hc
      have := List.mem_takeWhile_imp (List.mem_of_mem_take hc)
      simpa using this

/-- Every line on which `sscanf` returns 3 has the loose shape. -/
theorem sscanf_line_loose (lb : List Byte) (r : Record) (h : sscanf_line lb = some r) :
    loose_shape (cstr lb) r.filename := by
  unfold sscanf_line at h
  cases h1 : scan_unsigned 16 (cstr lb) with
  | none => simp [h1] at h
  | some p1 =>
    obtain ⟨x, s1⟩ := p1
    simp only [h1] at h
    cases h2 : scan_unsigned 10 (skip_space s1) with
    | none => simp [h2] at h
    | some p2 =>
      obtain ⟨t, s2⟩ := p2
      simp only [h2] at h
      cases h3 : scan_set 255 (skip_space s2) with
      | none => simp [h3] at h
      | some p3 =>
        obtain ⟨name, rest⟩ := p3
        simp only [h3, Option.some.injEq] at h
        subst h
        obtain ⟨ws1, sg1, hex, e1, hws1, hsg1, hhex⟩ := scan_unsigned_hex_split _ _ _ h1
        obtain ⟨wa, hwa, ea⟩ := skip_space_split s1
        obtain ⟨wb, sg2, dec, e2, hwb, hsg2, hdne, hdec⟩ := scan_unsigned_dec_split _ _ _ h2
        obtain ⟨ws3, hws3, e3⟩ := skip_space_split s2
        obtain ⟨e4, hnne, hnlen, hnnl⟩ := scan_set_split _ _ _ _ h3
        refine ⟨ws1, sg1, hex, wa ++ wb, sg2, dec, ws3, rest, ?_, hws1, hsg1, hhex, ?_, hsg2,
          hdne, hdec, hws3, hnne, hnlen, hnnl⟩
        · rw [e1, ea, e2, e3, e4]
          simp [List.append_assoc]
        · intro c hc
          rcases List.mem_append.1 hc with h5 | h5
          · exact hwa c h5
          · exact hwb c h5


/-! ## `sscanf` reads back what `fprintf` writes -/

theorem digit_char_val (d : Nat) (h : d < 16) :
    (digit_char d).val = if d < 10 then 48 + d else 87 + d := by
  unfold digit_char
  split
  · simp only [Fin.ofNat, Fin.val_mk]
    omega
  · simp only [Fin.ofNat, Fin.val_mk]
    omega

theorem digitval_digit_char (base d : Nat) (hb : base = 10 ∨ base = 16) (h : d < base) :
    digitval base (digit_char d) = some d := by
  have h16 : d < 16 := by omega
  have hv := digit_char_val d h16
  unfold digitval hexval decval
  rcases hb with hb | hb
  · subst hb
    have h10 : d < 10 := h
    simp only [h10, if_true] at hv
    simp only [hv, show ¬ (10 = 16) by decide, if_false]
    have c1 : 48 ≤ 48 + d ∧ 48 + d ≤ 57 := by omega
    simp only [c1, and_self, if_true, Nat.add_sub_cancel_left]
  · subst hb
    simp only [if_true]
    by_cases h10 : d < 10
    · simp only [h10, if_true] at hv
      have c1 : 48 ≤ 48 + d ∧ 48 + d ≤ 57 := by omega
      simp only [hv, c1, and_self, if_true, Nat.add_sub_cancel_left]
    · simp only [h10, if_false] at hv
      have c1 : ¬ (48 ≤ 87 + d ∧ 87 + d ≤ 57) := by omega
      have c2 : 97 ≤ 87 + d ∧ 87 + d ≤ 102 := by omega
      simp only [hv, c1, if_false, c2, and_self, if_true, Nat.add_sub_cancel_left]

theorem digit_char_plain (d : Nat) (h : d < 16) :
    isspace (digit_char d) = false ∧ (digit_char d).val ≠ 45 ∧ (digit_char d).val ≠ 43 ∧
      (digit_char d).val ≠ 120 ∧ (digit_char d).val ≠ 88 ∧ (digit_char d).val ≠ 0 ∧
      (digit_char d).val ≠ 10 ∧ ((digit_char d).val = 48 ↔ d = 0) := by
  have hv := digit_char_val d h
  unfold isspace
  by_cases h10 : d < 10
  · simp only [h10, if_true] at hv
    rw [hv]
    refine ⟨?_, by omega, by omega, by omega, by omega, by omega, by omega, by omega⟩
    simp only [Bool.or_eq_false_iff, decide_eq_false_iff_not, Bool.and_eq_false_iff]
    omega
  · simp only [h10, if_false] at hv
    rw [hv]
    refine ⟨?_, by omega, by omega, by omega, by omega, by omega, by omega, by omega⟩
    simp only [Bool.or_eq_false_iff, decide_eq_false_iff_not, Bool.and_eq_false_iff]
    omega

theorem scan_digits_stop (base : Nat) (c : Byte) (t : List Byte) (acc n : Nat)
    (h : digitval base c = none) : scan_digits base (c :: t) acc n = (acc, n, c :: t) := by
  simp [scan_digits, h]

theorem scan_digits_map (base : Nat) (hb : base = 10 ∨ base = 16) (ds : List Nat)
    (hds : ∀ d ∈ ds, d < base) (t : List Byte) (acc n : Nat) :
    scan_digits base (ds.map digit_char ++ t) acc n
      = scan_digits base t (digits_value base acc ds) (n + ds.length) := by
  induction ds generalizing acc n with
  | nil => simp [digits_value]
  | cons d ds ih =>
    have hd : d < base := hds d (List.mem_cons_self _ _)
    have hds2 : ∀ x ∈ ds, x < base := fun x hx => hds x (List.mem_cons_of_mem _ hx)
    have e : scan_digits base ((d :: ds).map digit_char ++ t) acc n
        = scan_digits base (ds.map digit_char ++ t) (acc * base + d) (n + 1) := by
      simp only [List.map_cons, List.cons_append, scan_digits,
        digitval_digit_char base d hb hd]
      rfl
    rw [e, ih hds2]
    simp only [digits_value, List.foldl_cons, List.length_cons]
    congr 1
    omega

/-- A number printed as digits and followed by a byte that is neither a digit nor
an `x` is read back by `scanf`. -/
theorem scan_unsigned_digits (base : Nat) (hb : base = 10 ∨ base = 16) (ds : List Nat)
    (hne : ds ≠ []) (hds : ∀ d ∈ ds, d < base) (hv : digits_value base 0 ds ≤ ULONG_MAX)
    (c : Byte) (t : List Byte) (hc : digitval base c = none)
    (hx : c.val ≠ 120 ∧ c.val ≠ 88) :
    scan_unsigned base (ds.map digit_char ++ c :: t)
      = some (digits_value base 0 ds, c :: t) := by
  cases ds with
  | nil => exact absurd rfl hne
  | cons d0 ds =>
    have hd0 : d0 < base := hds d0 (List.mem_cons_self _ _)
    have hds2 : ∀ x ∈ ds, x < base := fun x hx => hds x (List.mem_cons_of_mem _ hx)
    have h16 : d0 < 16 := by omega
    obtain ⟨p1, p2, p3, _, _, _, _, p8⟩ := digit_char_plain d0 h16
    have e1 : skip_space ((d0 :: ds).map digit_char ++ c :: t)
        = digit_char d0 :: (ds.map digit_char ++ c :: t) := by
      simp [skip_space, List.dropWhile, p1]
    have e2 : scan_sign (digit_char d0 :: (ds.map digit_char ++ c :: t))
        = (false, digit_char d0 :: (ds.map digit_char ++ c :: t)) := by
      simp [scan_sign, p2, p3]
    have hnv : ¬ ULONG_MAX < digits_value base 0 (d0 :: ds) := by omega
    by_cases hz : d0 = 0
    · have hz1 : (digit_char d0).val = 48 := p8.2 hz
      have e3 : scan_zero base (digit_char d0 :: (ds.map digit_char ++ c :: t))
          = (1, ds.map digit_char ++ c :: t) := by
        cases ds with
        | nil =>
          have hx2 : ¬ (base = 16 ∧ (c.val = 120 ∨ c.val = 88)) := by
            rintro ⟨_, h | h⟩
            · exact hx.1 h
            · exact hx.2 h
          simp only [List.map_nil, List.nil_append, scan_zero, hz1, if_true, hx2, if_false]
        | cons d1 ds =>
          have hd1 : d1 < 16 := by
            have := hds2 d1 (List.mem_cons_self _ _)
            omega
          obtain ⟨_, _, _, q4, q5, _⟩ := digit_char_plain d1 hd1
          have hx2 : ¬ (base = 16 ∧ ((digit_char d1).val = 120 ∨ (digit_char d1).val = 88)) := by
            rintro ⟨_, h | h⟩
            · exact q4 h
            · exact q5 h
          simp only [List.map_cons, List.cons_append, scan_zero, hz1, if_true, hx2, if_false]
      have e4 : scan_digits base (ds.map digit_char ++ c :: t) 0 0
          = (digits_value base 0 (d0 :: ds), 0 + ds.length, c :: t) := by
        rw [scan_digits_map base hb ds hds2, scan_digits_stop base c t _ _ hc, hz]
        simp [digits_value]
      unfold scan_unsigned
      simp only [e1, e2, e3, e4]
      simp [hnv]
    · have hz1 : ¬ (digit_char d0).val = 48 := fun h => hz (p8.1 h)
      have e3 : scan_zero base (digit_char d0 :: (ds.map digit_char ++ c :: t))
          = (0, digit_char d0 :: (ds.map digit_char ++ c :: t)) := by
        simp [scan_zero, hz1]
      have e4 : scan_digits base (digit_char d0 :: (ds.map digit_char ++ c :: t)) 0 0
          = (digits_value base 0 (d0 :: ds), 0 + (d0 :: ds).length, c :: t) := by
        have := scan_digits_map base hb (d0 :: ds) hds (c :: t) 0 0
        simp only [List.map_cons, List.cons_append] at this
        rw [this, scan_digits_stop base c t _ _ hc]
      unfold scan_unsigned
      simp only [e1, e2, e3, e4]
      simp [hnv]

theorem digits_value_append (base acc : Nat) (xs ys : List Nat) :
    digits_value base acc (xs ++ ys) = digits_value base (digits_value base acc xs) ys := by
  simp [digits_value, List.foldl_append]

theorem digits_value_zeros (base k : Nat) (ds : List Nat) :
    digits_value base 0 (List.replicate k 0 ++ ds) = digits_value base 0 ds := by
  induction k with
  | zero => simp
  | succ k ih =>
    rw [List.replicate_succ, List.cons_append]
    simp only [digits_value, List.foldl_cons, Nat.zero_mul, Nat.add_zero] at ih ⊢
    exact ih

theorem number_digits_value (base : Nat) (hb : 2 ≤ base) (fuel v : Nat)
    (h : v < base ^ fuel) : digits_value base 0 (number_digits base fuel v) = v := by
  induction fuel generalizing v with
  | zero =>
    simp only [Nat.pow_zero] at h
    have : v = 0 := by omega
    subst this
    simp [number_digits, digits_value]
  | succ fuel ih =>
    unfold number_digits
    rw [digits_value_append]
    by_cases h0 : v / base = 0
    · simp only [h0, if_true, digits_value, List.foldl_nil, List.foldl_cons, Nat.zero_mul,
        Nat.zero_add]
      have : v < base := by
        by_contra hge
        have h1 : 1 ≤ v / base := (Nat.le_div_iff_mul_le (by omega)).2 (by omega)
        omega
      exact Nat.mod_eq_of_lt this
    · simp only [h0, if_false]
      have hlt : v / base < base ^ fuel := by
        rw [Nat.div_lt_iff_lt_mul (by omega)]
        rw [Nat.pow_succ] at h
        exact h
      rw [ih _ hlt]
      simp only [digits_value, List.foldl_cons, List.foldl_nil]
      exact Nat.div_add_mod' v base

theorem number_digits_lt (base : Nat) (hb : 2 ≤ base) (fuel v : Nat) :
    ∀ d ∈ number_digits base fuel v, d < base := by
  induction fuel generalizing v with
  | zero => simp [number_digits]
  | succ fuel ih =>
    intro d hd
    unfold number_digits at hd
    rcases List.mem_append.1 hd with h | h
    · by_cases h0 : v / base = 0
      · simp [h0] at h
      · simp only [h0, if_false] at h
        exact ih _ d h
    · simp only [List.mem_singleton] at h
      subst h
      exact Nat.mod_lt _ (by omega)

theorem number_digits_length (base : Nat) (hb : 2 ≤ base) (fuel v k : Nat)
    (hk : 1 ≤ k) (h : v < base ^ k) : (number_digits base fuel v).length ≤ k := by
  induction fuel generalizing v k with
  | zero => simp [number_digits]
  | succ fuel ih =>
    unfold number_digits
    by_cases h0 : v / base = 0
    · simp only [h0, if_true, List.nil_append, List.length_singleton]
      exact hk
    · simp only [h0, if_false, List.length_append, List.length_singleton]
      have hk2 : 2 ≤ k := by
        by_contra hc
        have hk1 : k = 1 := by omega
        subst hk1
        simp only [Nat.pow_one] at h
        exact h0 (Nat.div_eq_of_lt h)
      have hlt : v / base < base ^ (k - 1) := by
        rw [Nat.div_lt_iff_lt_mul (by omega), ← Nat.pow_succ]
        have : (k - 1).succ = k := by omega
        rw [this]
        exact h
      have := ih (v / base) (k - 1) (by omega) hlt
      omega

theorem number_digits_ne_nil (base fuel v : Nat) : number_digits base (fuel + 1) v ≠ [] := by
  unfold number_digits
  simp


/-- What `print_unsigned` writes: a non-empty list of digits of the value. -/
theorem print_unsigned_digits (base : Nat) (hb : base = 10 ∨ base = 16) (width v : Nat)
    (hv : v ≤ ULONG_MAX) :
    ∃ ds, ds ≠ [] ∧ (∀ d ∈ ds, d < base) ∧ digits_value base 0 ds = v ∧
      print_unsigned base width v = ds.map digit_char ∧
      (number_digits base 64 v).length ≤ ds.length ∧
      ds.length ≤ max width (number_digits base 64 v).length := by
  have hb2 : 2 ≤ base := by omega
  have hpow : v < base ^ 64 := by
    have h1 : v < 2 ^ 64 := by
      unfold ULONG_MAX at hv
      omega
    have h2 : (2 : Nat) ^ 64 ≤ base ^ 64 := Nat.pow_le_pow_left hb2 64
    omega
  refine ⟨List.replicate (width - (number_digits base 64 v).length) 0
    ++ number_digits base 64 v, ?_, ?_, ?_, rfl, ?_, ?_⟩
  · intro h
    have := (List.append_eq_nil.1 h).2
    exact number_digits_ne_nil base 63 v this
  · intro d hd
    rcases List.mem_append.1 hd with h | h
    · have := (List.mem_replicate.1 h).2
      omega
    · exact number_digits_lt base hb2 64 v d h
  · rw [digits_value_zeros, number_digits_value base hb2 64 v hpow]
  · simp only [List.length_append, List.length_replicate]
    omega
  · simp only [List.length_append, List.length_replicate]
    omega

theorem print_unsigned_scan (base : Nat) (hb : base = 10 ∨ base = 16) (width v : Nat)
    (hv : v ≤ ULONG_MAX) (c : Byte) (t : List Byte) (hc : digitval base c = none)
    (hx : c.val ≠ 120 ∧ c.val ≠ 88) :
    scan_unsigned base (print_unsigned base width v ++ c :: t) = some (v, c :: t) := by
  obtain ⟨ds, hne, hds, hval, hp, _, _⟩ := print_unsigned_digits base hb width v hv
  rw [hp, scan_unsigned_digits base hb ds hne hds (by rw [hval]; exact hv) c t hc hx, hval]

theorem print_unsigned_bytes (base : Nat) (hb : base = 10 ∨ base = 16) (width v : Nat)
    (hv : v ≤ ULONG_MAX) :
    (∀ c ∈ print_unsigned base width v, c.val ≠ 0 ∧ c.val ≠ 10) ∧
      ∀ t, ∀ c ∈ (print_unsigned base width v ++ t).head?, isspace c = false := by
  obtain ⟨ds, hne, hds, _, hp, _, _⟩ := print_unsigned_digits base hb width v hv
  rw [hp]
  constructor
  · intro c hc
    obtain ⟨d, hd, rfl⟩ := List.mem_map.1 hc
    have h16 : d < 16 := by
      have := hds d hd
      omega
    obtain ⟨_, _, _, _, _, p6, p7, _⟩ := digit_char_plain d h16
    exact ⟨p6, p7⟩
  · intro t c hc
    cases ds with
    | nil => exact absurd rfl hne
    | cons d ds =>
      simp only [List.map_cons, List.cons_append, List.head?_cons, Option.mem_def,
        Option.some.injEq] at hc
      subst hc
      have h16 : d < 16 := by
        have := hds d (List.mem_cons_self _ _)
        omega
      exact (digit_char_plain d h16).1

theorem print_unsigned_length_hex (v : Nat) (hv : v < 2 ^ 32) :
    (print_unsigned 16 8 v).length ≤ 8 := by
  obtain ⟨ds, _, _, _, hp, _, hlen⟩ :=
    print_unsigned_digits 16 (Or.inr rfl) 8 v (by unfold ULONG_MAX; omega)
  have := number_digits_length 16 (by decide) 64 v 8 (by decide) (by omega)
  rw [hp, List.length_map]
  omega

theorem print_unsigned_length_dec (v : Nat) (hv : v < 2 ^ 64) :
    (print_unsigned 10 10 v).length ≤ 20 := by
  obtain ⟨ds, _, _, _, hp, _, hlen⟩ :=
    print_unsigned_digits 10 (Or.inl rfl) 10 v (by unfold ULONG_MAX; omega)
  have := number_digits_length 10 (by decide) 64 v 20 (by decide) (by omega)
  rw [hp, List.length_map]
  omega

theorem skip_space_of_head (s : List Byte) (h : ∀ c ∈ s.head?, isspace c = false) :
    skip_space s = s := by
  cases s with
  | nil => rfl
  | cons c t =>
    have := h c (by simp)
    simp [skip_space, List.dropWhile, this]

theorem skip_space_cons (c : Byte) (s : List Byte) (hc : isspace c = true)
    (h : ∀ x ∈ s.head?, isspace x = false) : skip_space (c :: s) = s := by
  have e : skip_space (c :: s) = skip_space s := by
    simp [skip_space, List.dropWhile, hc]
  rw [e, skip_space_of_head s h]

theorem cstr_of_no_nul (s : List Byte) (h : ∀ c ∈ s, c.val ≠ 0) : cstr s = s := by
  unfold cstr
  rw [List.takeWhile_eq_self_iff]
  intro c hc
  simpa using h c hc

theorem byte10_val : ((10 : Byte) : Nat) = 10 := rfl

theorem scan_set_name (name : List Byte) (t : List Byte) (hne : name ≠ [])
    (hlen : name.length ≤ 255) (hnl : ∀ c ∈ name, c.val ≠ 10) :
    scan_set 255 (name ++ 10 :: t) = some (name, 10 :: t) := by
  have e : (name ++ 10 :: t).takeWhile (fun c => decide (c.val ≠ 10)) = name := by
    rw [List.takeWhile_append_of_pos (fun c hc => by simpa using hnl c hc)]
    simp [byte10_val]
  unfold scan_set
  simp only [e, List.take_of_length_le hlen, hne, if_false]
  simp

/-- The body of a manifest line: everything before the final newline. -/
theorem fprintf_line_body (crc mtime : Nat) (name : List Byte) :
    fprintf_line crc mtime name
      = (print_unsigned 16 8 (crc % 2 ^ 32) ++ 32 :: (print_unsigned 10 10 (mtime % 2 ^ 64)
          ++ 9 :: name)) ++ [10] := by
  simp [fprintf_line, List.append_assoc]

theorem mod_le_ulong (v : Nat) : v % 2 ^ 64 ≤ ULONG_MAX := by
  have : v % 2 ^ 64 < 2 ^ 64 := Nat.mod_lt _ (by decide)
  unfold ULONG_MAX
  omega

theorem mod32_le_ulong (v : Nat) : v % 2 ^ 32 ≤ ULONG_MAX := by
  have : v % 2 ^ 32 < 2 ^ 32 := Nat.mod_lt _ (by decide)
  unfold ULONG_MAX
  omega

theorem fprintf_line_bytes (crc mtime : Nat) (name : List Byte)
    (hname : ∀ c ∈ name, c.val ≠ 0 ∧ c.val ≠ 10) (hlen : name.length ≤ 255) :
    let body := print_unsigned 16 8 (crc % 2 ^ 32) ++ 32 ::
      (print_unsigned 10 10 (mtime % 2 ^ 64) ++ 9 :: name)
    body.length < 319 ∧ (∀ c ∈ body, c.val ≠ 0 ∧ c.val ≠ 10) := by
  have h1 := print_unsigned_length_hex (crc % 2 ^ 32) (Nat.mod_lt _ (by decide))
  have h2 := print_unsigned_length_dec (mtime % 2 ^ 64) (Nat.mod_lt _ (by decide))
  have b1 := (print_unsigned_bytes 16 (Or.inr rfl) 8 _ (mod32_le_ulong crc)).1
  have b2 := (print_unsigned_bytes 10 (Or.inl rfl) 10 _ (mod_le_ulong mtime)).1
  constructor
  · simp only [List.length_append, List.length_cons]
    omega
  · intro c hc
    simp only [List.mem_append, List.mem_cons] at hc
    rcases hc with h | h | h | h | h
    · exact b1 c h
    · subst h
      exact ⟨by decide, by decide⟩
    · exact b2 c h
    · subst h
      exact ⟨by decide, by decide⟩
    · exact hname c h

/-- The codec round trip on the records the format supports: `sscanf` reads back
the three fields that `fprintf` wrote. -/
theorem sscanf_fprintf (r : Record) (h : plain_record r) :
    sscanf_line (fprintf_record r) = some r := by
  obtain ⟨hcrc, hmt, hne, hlen, hbytes, hhead⟩ := h
  have hb := fprintf_line_bytes r.crc r.mtime r.filename hbytes hlen
  simp only [] at hb
  have hnonul : ∀ c ∈ fprintf_record r, c.val ≠ 0 := by
    intro c hc
    unfold fprintf_record at hc
    rw [fprintf_line_body] at hc
    rcases List.mem_append.1 hc with h1 | h1
    · exact (hb.2 c h1).1
    · simp only [List.mem_singleton] at h1
      subst h1
      decide
  have e0 : cstr (fprintf_record r) = print_unsigned 16 8 (r.crc % 2 ^ 32) ++ 32 ::
      (print_unsigned 10 10 (r.mtime % 2 ^ 64) ++ 9 :: (r.filename ++ 10 :: [])) := by
    rw [cstr_of_no_nul _ hnonul]
    simp [fprintf_record, fprintf_line, List.append_assoc]
  have e1 := print_unsigned_scan 16 (Or.inr rfl) 8 (r.crc % 2 ^ 32) (mod32_le_ulong _) 32
    (print_unsigned 10 10 (r.mtime % 2 ^ 64) ++ 9 :: (r.filename ++ 10 :: []))
    (by decide) (by decide)
  have e2 : skip_space (32 :: (print_unsigned 10 10 (r.mtime % 2 ^ 64)
      ++ 9 :: (r.filename ++ 10 :: [])))
      = print_unsigned 10 10 (r.mtime % 2 ^ 64) ++ 9 :: (r.filename ++ 10 :: []) :=
    skip_space_cons 32 _ (by decide)
      ((print_unsigned_bytes 10 (Or.inl rfl) 10 _ (mod_le_ulong _)).2 _)
  have e3 := print_unsigned_scan 10 (Or.inl rfl) 10 (r.mtime % 2 ^ 64) (mod_le_ulong _) 9
    (r.filename ++ 10 :: []) (by decide) (by decide)
  have e4 : skip_space (9 :: (r.filename ++ 10 :: [])) = r.filename ++ 10 :: [] := by
    apply skip_space_cons 9 _ (by decide)
    intro c hc
    cases hf : r.filename with
    | nil => exact absurd hf hne
    | cons x xs =>
      rw [hf] at hc hhead
      simp only [List.cons_append, List.head?_cons, Option.mem_def, Option.some.injEq] at hc
      subst hc
      exact hhead x (by simp)
  have e5 := scan_set_name r.filename [] hne hlen (fun c hc => (hbytes c hc).2)
  unfold sscanf_line
  rw [e0, e1]
  simp only [e2, e3, e4, e5]
  rw [Nat.mod_eq_of_lt hmt, Nat.mod_mod, Nat.mod_eq_of_lt hcrc]

/-! ## The fuel of the `fgets` loop -/

theorem fgets_rest_le (n : Nat) (s : List Byte) : (fgets n s).2.length ≤ s.length := by
  induction s generalizing n with
  | nil => cases n <;> simp [fgets]
  | cons c s ih =>
    cases n with
    | zero => simp [fgets]
    | succ n =>
      unfold fgets
      split
      · simp
      · have := ih n
        simp only [List.length_cons]
        omega

theorem fgets_rest_lt (n : Nat) (c : Byte) (s : List Byte) :
    (fgets (n + 1) (c :: s)).2.length < (c :: s).length := by
  unfold fgets
  split
  · simp
  · have := fgets_rest_le n s
    simp only [List.length_cons]
    omega

/-- Every call of `fgets` consumes at least one byte, so the loop ends within as many
calls as the file has bytes: more fuel does not change the buffers read. -/
theorem fgets_loop_fuel (fuel1 fuel2 : Nat) (s : List Byte) (h1 : s.length ≤ fuel1)
    (h2 : s.length ≤ fuel2) : fgets_loop fuel1 s = fgets_loop fuel2 s := by
  induction fuel1 generalizing fuel2 s with
  | zero =>
    have : s = [] := List.eq_nil_of_length_eq_zero (by omega)
    subst this
    cases fuel2 <;> rfl
  | succ fuel1 ih =>
    cases s with
    | nil => cases fuel2 <;> rfl
    | cons c s =>
      cases fuel2 with
      | zero => simp at h2
      | succ fuel2 =>
        have hlt : (fgets 319 (c :: s)).2.length < (c :: s).length := fgets_rest_lt 318 c s
        simp only [fgets_loop]
        rw [ih fuel2 _ (by simp only [List.length_cons] at h1 hlt; omega)
          (by simp only [List.length_cons] at h2 hlt; omega)]

/-! ## `fgets` reads back the lines written -/

theorem fgets_body (n : Nat) (body rest : List Byte) (hlen : body.length < n)
    (hnl : ∀ c ∈ body, c.val ≠ 10) :
    fgets n (body ++ 10 :: rest) = (body ++ [10], rest) := by
  induction body generalizing n with
  | nil =>
    cases n with
    | zero => simp at hlen
    | succ n => simp [fgets, byte10_val]
  | cons c body ih =>
    cases n with
    | zero => simp at hlen
    | succ n =>
      have hc : c.val ≠ 10 := hnl c (List.mem_cons_self _ _)
      have h2 := ih n (by simp only [List.length_cons] at hlen; omega)
        (fun x hx => hnl x (List.mem_cons_of_mem _ hx))
      have e : fgets (n + 1) (c :: body ++ 10 :: rest)
          = (c :: (fgets n (body ++ 10 :: rest)).1, (fgets n (body ++ 10 :: rest)).2) := by
        simp only [List.cons_append, fgets, hc, if_false]
        rfl
      rw [e, h2]
      rfl

theorem fgets_loop_lines (bodies : List (List Byte)) (fuel : Nat)
    (hb : ∀ b ∈ bodies, b.length < 319 ∧ ∀ c ∈ b, c.val ≠ 10)
    (hfuel : bodies.length ≤ fuel) :
    fgets_loop fuel (bodies.map (fun b => b ++ [10])).flatten
      = bodies.map (fun b => b ++ [10]) := by
  induction bodies generalizing fuel with
  | nil =>
    cases fuel with
    | zero => rfl
    | succ fuel => rfl
  | cons b bodies ih =>
    cases fuel with
    | zero => simp at hfuel
    | succ fuel =>
      obtain ⟨hl, hn⟩ := hb b (List.mem_cons_self _ _)
      have e : ((b :: bodies).map (fun b => b ++ [10])).flatten
          = b ++ 10 :: (bodies.map (fun b => b ++ [10])).flatten := by
        simp [List.append_assoc]
      have hf := fgets_body 319 b (bodies.map (fun b => b ++ [10])).flatten hl hn
      rw [e]
      cases hbb : b ++ 10 :: (bodies.map (fun b => b ++ [10])).flatten with
      | nil => simp at hbb
      | cons x xs =>
        rw [← hbb]
        simp only [fgets_loop, hbb]
        rw [← hbb, hf, ih fuel (fun b2 h2 => hb b2 (List.mem_cons_of_mem _ h2))
          (by simp only [List.length_cons] at hfuel; omega)]
        simp

theorem fgets_lines_of_bodies (bodies : List (List Byte))
    (hb : ∀ b ∈ bodies, b.length < 319 ∧ ∀ c ∈ b, c.val ≠ 10) :
    fgets_lines (bodies.map (fun b => b ++ [10])).flatten
      = bodies.map (fun b => b ++ [10]) := by
  unfold fgets_lines
  apply fgets_loop_lines bodies _ hb
  clear hb
  induction bodies with
  | nil => simp
  | cons b bodies ih =>
    simp only [List.map_cons, List.flatten_cons, List.length_append, List.length_cons,
      List.length_nil] at ih ⊢
    omega

/-- A manifest made of the lines of plain records is read back as these records. -/
theorem manifest_records_written (rs : List Record) (h : ∀ r ∈ rs, plain_record r) :
    manifest_records (rs.map fprintf_record).flatten = rs := by
  have hbody : ∀ r : Record, fprintf_record r
      = (print_unsigned 16 8 (r.crc % 2 ^ 32) ++ 32 ::
          (print_unsigned 10 10 (r.mtime % 2 ^ 64) ++ 9 :: r.filename)) ++ [10] :=
    fun r => fprintf_line_body r.crc r.mtime r.filename
  have e : rs.map fprintf_record
      = (rs.map (fun r => print_unsigned 16 8 (r.crc % 2 ^ 32) ++ 32 ::
          (print_unsigned 10 10 (r.mtime % 2 ^ 64) ++ 9 :: r.filename))).map
          (fun b => b ++ [10]) := by
    rw [List.map_map]
    apply List.map_congr_left
    intro r _
    exact hbody r
  unfold manifest_records
  rw [e, fgets_lines_of_bodies, ← e]
  · clear e
    induction rs with
    | nil => rfl
    | cons r rs ih =>
      rw [List.map_cons, List.filterMap_cons_some
        (sscanf_fprintf r (h r (List.mem_cons_self _ _))),
        ih (fun r2 h2 => h r2 (List.mem_cons_of_mem _ h2))]
  · intro b hb
    obtain ⟨r, hr, rfl⟩ := List.mem_map.1 hb
    obtain ⟨_, _, _, hlen, hbytes, _⟩ := h r hr
    have := fprintf_line_bytes r.crc r.mtime r.filename hbytes hlen
    exact ⟨this.1, fun c hc => (this.2 c hc).2⟩


/-! ## The manifest codec: claims -/

/-- C3: the round trip fails on a record whose file name is within the contract (two
bytes, no tab, no newline) but begins with a space: the line written by
`update_crcfile` for checksum 0, time 0 and the name ` a` is read back by the
`sscanf` of `check_crcfile` and `load_crcfile` with the file name `a`, the directive
`\t` of the format having consumed the space. -/
theorem sscanf_fprintf_leading_space :
    name_space_a.length ≤ 255 ∧ (∀ c ∈ name_space_a, c.val ≠ 9 ∧ c.val ≠ 10) ∧
      sscanf_line (fprintf_line 0 0 name_space_a) = some ⟨0, 0, name_a⟩ ∧
      name_a ≠ name_space_a := by
  decide!

/-- C10, as stated, fails: `sscanf` fills the three fields from the line `1 2 x`,
which has a single hexadecimal digit and no tab. -/
theorem sscanf_line_shape_counterexample :
    sscanf_line line_short = some ⟨1, 2, [120]⟩ ∧ ¬ exact_shape line_short := by
  refine ⟨by decide!, ?_⟩
  rintro ⟨hex, dec, name, term, hs, hlen, _⟩
  have h := congrArg List.length hs
  simp only [line_short, List.length_cons, List.length_nil, List.length_append] at h
  omega

/-- C10, amended: for every manifest line, `sscanf` fills the three fields only if
the line has the shape: optional white space, an optionally signed hexadecimal
number (one or more hexadecimal digits, or `0x` and any number of them), optional
white space, an optionally signed run of one or more decimal digits, optional white
space, then a non-empty file name without newline of at most 255 bytes, which is
the name stored; a line on which `sscanf` does not fill the three fields is
skipped: it leaves the state of `check_crcfile` (counters included) and the index
of `load_crcfile` unchanged. -/
theorem sscanf_line_shape (lb : List Byte) :
    (∀ r, sscanf_line lb = some r → loose_shape (cstr lb) r.filename) ∧
    (sscanf_line lb = none →
      (∀ fs st, check_line fs st lb = st) ∧
      (∀ fs n lines crcs,
        load_crcfile_loop fs n (lb :: lines) crcs = load_crcfile_loop fs n lines crcs)) := by
  refine ⟨fun r h => sscanf_line_loose lb r h, fun h => ⟨fun fs st => ?_, fun fs n lines crcs => ?_⟩⟩
  · exact check_line_none fs st lb h
  · simp only [load_crcfile_loop, h]

/-- Two instances: the line `1 2 x`, from which the three fields are filled, and the
line `x`, which is skipped. -/
theorem sscanf_line_shape_witness :
    (sscanf_line line_short = some ⟨1, 2, [120]⟩ ∧ loose_shape (cstr line_short) [120]) ∧
    (sscanf_line [120] = none ∧ check_line fs_a check_init [120] = check_init) :=
  ⟨⟨by decide!, (sscanf_line_shape line_short).1 ⟨1, 2, [120]⟩ (by decide!)⟩,
    ⟨by decide!, ((sscanf_line_shape [120]).2 (by decide!)).1 fs_a check_init⟩⟩

/-! ## `update_crcfile`: the loop -/

theorem update_entry_eq (fs : FileSystem) (old_crcs : Option (List crc_entry))
    (st : UpdateState) (d_name : List Byte) :
    update_entry fs old_crcs st d_name =
      ⟨st.out ++ ((update_record fs old_crcs d_name).map fprintf_record).getD [],
        st.calc_calls ++ update_calls fs old_crcs d_name⟩ := by
  unfold update_entry update_record update_calls
  by_cases h1 : d_name = CRCS
  · simp [h1]
  · simp only [h1, if_false]
    cases h2 : fs.lookup d_name with
    | none => simp
    | some sb =>
      simp only []
      by_cases h3 : sb.is_reg = false
      · simp [h3]
      · simp only [h3, if_false]
        cases h4 : find_old_crcs old_crcs sb.st_ino (u64 sb.st_mtime) with
        | some old => simp [fprintf_record]
        | none =>
          simp only []
          cases h5 : calc_file_crc fs d_name with
          | some crc => simp [fprintf_record]
          | none => simp

theorem update_fold (fs : FileSystem) (old_crcs : Option (List crc_entry))
    (entries : List (List Byte)) (st : UpdateState) :
    entries.foldl (update_entry fs old_crcs) st =
      ⟨st.out ++ ((entries.filterMap (update_record fs old_crcs)).map fprintf_record).flatten,
        st.calc_calls ++ (entries.map (update_calls fs old_crcs)).flatten⟩ := by
  induction entries generalizing st with
  | nil => simp
  | cons d entries ih =>
    rw [List.foldl_cons, ih, update_entry_eq]
    cases h : update_record fs old_crcs d with
    | none =>
      rw [List.filterMap_cons_none h]
      simp [List.append_assoc]
    | some r =>
      rw [List.filterMap_cons_some h]
      simp [List.append_assoc]

/-- The result of `update_crcfile` when the manifest can be written and the
directory read. -/
theorem update_crcfile_eq (fs : FileSystem) (entries : List (List Byte))
    (hw : fs.crcs_writable = true) (hd : fs.dir = some entries) :
    update_crcfile fs =
      ⟨0, { fs with crcs := some ((entries.filterMap
              (update_record fs (load_crcfile fs))).map fprintf_record).flatten },
        (entries.map (update_calls fs (load_crcfile fs))).flatten⟩ := by
  unfold update_crcfile
  simp only [hw, hd, update_fold]
  simp

theorem calc_file_crc_congr (fs1 fs2 : FileSystem) (h : fs1.lookup = fs2.lookup)
    (name : List Byte) : calc_file_crc fs1 name = calc_file_crc fs2 name := by
  unfold calc_file_crc
  rw [h]

theorem crc32c_hw_run_lt (buf : List Byte) : crc32c_hw_run buf < 2 ^ 32 := by
  unfold crc32c_hw_run
  simp only []
  omega

theorem calc_file_crc_lt (fs : FileSystem) (name : List Byte) (c : Nat)
    (h : calc_file_crc fs name = some c) : c < 2 ^ 32 := by
  unfold calc_file_crc at h
  cases hl : fs.lookup name with
  | none => simp [hl] at h
  | some f =>
    simp only [hl] at h
    split at h
    · exact absurd h (by simp)
    · split at h
      · exact absurd h (by simp)
      · cases hm : mmap f f.data.length with
        | none => simp [hm] at h
        | some p =>
          obtain ⟨addr, mem⟩ := p
          simp only [hm] at h
          unfold crc32c_hw at h
          split at h
          · rw [← Option.some.inj h]
            exact crc32c_hw_run_lt mem
          · exact absurd h (by simp)

/-- What `calc_file_crc` computes on a file that can be opened and mapped: the
CRC-32C of its contents. -/
theorem calc_file_crc_readable (fs : FileSystem) (name : List Byte) (f : File)
    (hl : fs.lookup name = some f) (ho : f.can_open = true) (hf : f.can_fstat = true)
    (page : Nat) (hp : f.map_page = some page) (hne : f.data ≠ []) :
    calc_file_crc fs name = some (crc32c_spec f.data) := by
  have hlen : f.data.length ≠ 0 := fun h => hne (List.eq_nil_of_length_eq_zero h)
  have e : crc32c_hw (4096 * page) f.data = some (crc32c_spec f.data) := by
    unfold crc32c_hw
    rw [if_pos (by omega : 4096 * page % 8 = 0), crc32c_hw_run_eq_spec]
  unfold calc_file_crc mmap
  simp only [hl, ho, hf, hp, hlen, if_false, List.take_length]
  simpa using e

theorem u64_lt (t : Int) : u64 t < 2 ^ 64 := by
  unfold u64
  have h1 : 0 ≤ t % 2 ^ 64 := Int.emod_nonneg _ (by decide)
  have h2 : t % 2 ^ 64 < 2 ^ 64 := Int.emod_lt_of_pos _ (by decide)
  omega


/-! ## Check after a change of the bytes: claims -/

theorem check_counters (fs : FileSystem) (content : List Byte) (h : fs.crcs = some content) :
    (check_crcfile fs).2.n_nfound
      = (manifest_records content).countP (fun r => spec_outcome fs r = Outcome.NotFound) ∧
    (check_crcfile fs).2.n_changed
      = (manifest_records content).countP (fun r => spec_outcome fs r = Outcome.Modified) ∧
    (check_crcfile fs).2.n_broken
      = (manifest_records content).countP (fun r => spec_outcome fs r = Outcome.Broken) ∧
    (check_crcfile fs).2.n_err
      = (manifest_records content).countP (fun r => spec_outcome fs r = Outcome.Error) ∧
    (check_crcfile fs).2.report
      = (manifest_records content).map (fun r => (spec_outcome fs r, r.filename)) := by
  have hst := check_crcfile_state fs content h
  obtain ⟨h1, h2, h3, h4, h5⟩ := check_bump_fold fs (manifest_records content) check_init
  simp only [check_init, Nat.zero_add, List.nil_append] at h1 h2 h3 h4 h5
  rw [hst]
  exact ⟨h1, h2, h3, h4, h5⟩

theorem check_crcfile_ret (fs : FileSystem) (content : List Byte) (h : fs.crcs = some content) :
    (check_crcfile fs).1 =
      if (check_crcfile fs).2.n_nfound = 0 ∧ (check_crcfile fs).2.n_changed = 0 ∧
        (check_crcfile fs).2.n_broken = 0 ∧ (check_crcfile fs).2.n_err = 0 then 0 else 1 := by
  unfold check_crcfile
  rw [h]
  simp only []
  split
  · rename_i hz
    simp [hz]
  · rename_i hz
    simp [hz]

/-- C7, as stated, fails: in `fs_collision` the record of the file `a` was produced
from five zero bytes, the file now holds five other bytes under the recorded time,
and `check_crcfile` reports `Ok` and returns 0, the two byte sequences having the
same CRC-32C. -/
theorem check_changed_bytes_counterexample :
    manifest_records (fprintf_line (crc32c_spec [0, 0, 0, 0, 0]) 7 name_a)
        = [⟨crc32c_spec [0, 0, 0, 0, 0], 7, name_a⟩] ∧
      fs_collision.lookup name_a = some file_collision ∧
      file_collision.data ≠ [0, 0, 0, 0, 0] ∧ u64 file_collision.st_mtime = 7 ∧
      (check_crcfile fs_collision).2.report = [(Outcome.Ok, name_a)] ∧
      (check_crcfile fs_collision).1 = 0 := by
  decide!

/-- C7, amended: for every tracked file whose manifest record was produced from its
original bytes, replacing the bytes of the file by a non-empty byte sequence whose
CRC-32C differs from that of the original bytes, while its modification time stays
the recorded one and the file can still be opened and mapped, makes `check_crcfile`
classify that record as `Broken` and return 1. -/
theorem check_changed_bytes (fs : FileSystem) (content : List Byte) (r : Record)
    (orig : List Byte) (f : File) (page : Nat)
    (hc : fs.crcs = some content) (hr : r ∈ manifest_records content)
    (hcrc : r.crc = crc32c_spec orig)
    (hl : fs.lookup r.filename = some f) (hm : u64 f.st_mtime = r.mtime)
    (ho : f.can_open = true) (hf : f.can_fstat = true) (hp : f.map_page = some page)
    (hne : f.data ≠ []) (hdiff : crc32c_spec f.data ≠ crc32c_spec orig) :
    spec_outcome fs r = Outcome.Broken ∧
      (Outcome.Broken, r.filename) ∈ (check_crcfile fs).2.report ∧
      (check_crcfile fs).1 = 1 := by
  have hcalc := calc_file_crc_readable fs r.filename f hl ho hf page hp hne
  have hout : spec_outcome fs r = Outcome.Broken := by
    unfold spec_outcome
    simp only [hl, hm, ne_eq, not_true_eq_false, if_false, hcalc, hcrc]
    simp [hdiff]
  obtain ⟨_, _, h3, _, h5⟩ := check_counters fs content hc
  refine ⟨hout, ?_, ?_⟩
  · rw [h5]
    exact List.mem_map.2 ⟨r, hr, by rw [hout]⟩
  · rw [check_crcfile_ret fs content hc]
    have hpos : 0 < (manifest_records content).countP
        (fun r => spec_outcome fs r = Outcome.Broken) :=
      List.countP_pos_iff.2 ⟨r, hr, by simp [hout]⟩
    have : ¬ ((check_crcfile fs).2.n_nfound = 0 ∧ (check_crcfile fs).2.n_changed = 0 ∧
        (check_crcfile fs).2.n_broken = 0 ∧ (check_crcfile fs).2.n_err = 0) := by
      rintro ⟨_, _, hb, _⟩
      rw [h3] at hb
      omega
    simp [this]

/-- An instance: the file `a` recorded with the checksum of the byte 1 and now
holding the byte 2. -/
theorem check_changed_bytes_witness :
    (0xa016d052 = crc32c_spec [1] ∧ crc32c_spec file_changed.data ≠ crc32c_spec [1]) ∧
      (check_crcfile fs_changed).1 = 1 ∧
      (Outcome.Broken, name_a) ∈ (check_crcfile fs_changed).2.report :=
  have h := check_changed_bytes fs_changed line_a ⟨0xa016d052, 7, name_a⟩ [1] file_changed 3
    rfl (by decide!) (by decide!) (by decide!) (by decide!) rfl rfl rfl (by decide) (by decide!)
  ⟨⟨by decide!, by decide!⟩, h.2.2, h.2.1⟩


/-! ## Update, then check -/

theorem find_old_crcs_mem (old_crcs : Option (List crc_entry)) (ino mtime : Nat)
    (e : crc_entry) (h : find_old_crcs old_crcs ino mtime = some e) :
    e.ino = ino ∧ e.mtime = mtime := by
  unfold find_old_crcs at h
  cases old_crcs with
  | none => simp at h
  | some es => exact (find_old_mem es ino mtime e h).2

/-- The record written for a directory entry: the entry is a tracked file, the
record carries its name and time, and its checksum comes from the index or from
`calc_file_crc`. -/
theorem update_record_some (fs : FileSystem) (old_crcs : Option (List crc_entry))
    (n : List Byte) (r : Record) (h : update_record fs old_crcs n = some r) :
    r.filename = n ∧ ∃ sb, tracked fs n sb ∧ r.mtime = u64 sb.st_mtime ∧
      ((∃ o, find_old_crcs old_crcs sb.st_ino (u64 sb.st_mtime) = some o ∧ r.crc = o.crc) ∨
        (find_old_crcs old_crcs sb.st_ino (u64 sb.st_mtime) = none ∧
          calc_file_crc fs n = some r.crc)) := by
  unfold update_record at h
  by_cases h1 : n = CRCS
  · simp [h1] at h
  · simp only [h1, if_false] at h
    cases h2 : fs.lookup n with
    | none => simp [h2] at h
    | some sb =>
      simp only [h2] at h
      by_cases h3 : sb.is_reg = false
      · simp [h3] at h
      · have h3t : sb.is_reg = true := by simpa using h3
        simp only [h3t, Bool.true_eq_false, if_false] at h
        cases h4 : find_old_crcs old_crcs sb.st_ino (u64 sb.st_mtime) with
        | some old =>
          simp only [h4, Option.some.injEq] at h
          subst h
          have := find_old_crcs_mem _ _ _ _ h4
          exact ⟨rfl, sb, ⟨h1, h2, h3t⟩, this.2, Or.inl ⟨old, h4, rfl⟩⟩
        | none =>
          simp only [h4] at h
          cases h5 : calc_file_crc fs n with
          | none => simp [h5] at h
          | some crc =>
            simp only [h5, Option.some.injEq] at h
            subst h
            exact ⟨rfl, sb, ⟨h1, h2, h3t⟩, rfl, Or.inr ⟨h4, rfl⟩⟩

theorem update_record_none_calls (fs : FileSystem) (old_crcs : Option (List crc_entry))
    (n : List Byte) (h : ∀ sb, ¬ tracked fs n sb) :
    update_record fs old_crcs n = none ∧ update_calls fs old_crcs n = [] := by
  unfold update_record update_calls
  by_cases h1 : n = CRCS
  · simp [h1]
  · simp only [h1, if_false]
    cases h2 : fs.lookup n with
    | none => simp
    | some sb =>
      simp only []
      by_cases h3 : sb.is_reg = false
      · simp [h3]
      · exact absurd ⟨h1, h2, by simpa using h3⟩ (h sb)

/-- A manifest all of whose records are `Ok` is clean. -/
theorem check_all_ok (fs : FileSystem) (content : List Byte) (hc : fs.crcs = some content)
    (h : ∀ r ∈ manifest_records content, spec_outcome fs r = Outcome.Ok) :
    (check_crcfile fs).1 = 0 ∧ (check_crcfile fs).2.n_nfound = 0 ∧
      (check_crcfile fs).2.n_changed = 0 ∧ (check_crcfile fs).2.n_broken = 0 ∧
      (check_crcfile fs).2.n_err = 0 := by
  obtain ⟨h1, h2, h3, h4, _⟩ := check_counters fs content hc
  have z : ∀ o, o ≠ Outcome.Ok →
      (manifest_records content).countP (fun r => spec_outcome fs r = o) = 0 := by
    intro o ho
    rw [List.countP_eq_zero]
    intro r hr
    simp only [decide_eq_true_eq]
    rw [h r hr]
    exact fun e => ho e.symm
  rw [z _ (by decide)] at h1 h2 h3 h4
  refine ⟨?_, h1, h2, h3, h4⟩
  rw [check_crcfile_ret fs content hc]
  simp [h1, h2, h3, h4]

/-- C6, as stated, fails: in `fs_stale` the previous manifest records the file `a`
under its current inode and time with a checksum that is not the one of its
contents; `update_crcfile` reuses it, and `check_crcfile` right after reports the
file `Broken` and returns 1. -/
theorem update_then_check_counterexample :
    (update_crcfile fs_stale).ret = 0 ∧
      (check_crcfile (update_crcfile fs_stale).fs).1 = 1 ∧
      (check_crcfile (update_crcfile fs_stale).fs).2.n_broken = 1 := by
  decide!

/-- C6, amended: for every directory state in which the manifest can be written,
every tracked file has a plain name (no newline in it, no white space at its head),
and every checksum that the index returns for a tracked file is the current checksum
of that file, running `update_crcfile` and then `check_crcfile` with no change in
between returns 0 with the not-found, changed, broken and error counts all zero. -/
theorem update_then_check (fs : FileSystem) (hw : fs.crcs_writable = true)
    (hnames : ∀ n ∈ dir_entries fs, ∀ sb, tracked fs n sb → plain_name n)
    (hcache : ∀ n ∈ dir_entries fs, ∀ sb, tracked fs n sb →
      ∀ old, find_old_crcs (load_crcfile fs) sb.st_ino (u64 sb.st_mtime) = some old →
        calc_file_crc fs n = some old.crc) :
    (check_crcfile (update_crcfile fs).fs).1 = 0 ∧
      (check_crcfile (update_crcfile fs).fs).2.n_nfound = 0 ∧
      (check_crcfile (update_crcfile fs).fs).2.n_changed = 0 ∧
      (check_crcfile (update_crcfile fs).fs).2.n_broken = 0 ∧
      (check_crcfile (update_crcfile fs).fs).2.n_err = 0 := by
  cases hd : fs.dir with
  | none =>
    have e : update_crcfile fs = ⟨1, { fs with crcs := some [] }, []⟩ := by
      unfold update_crcfile
      simp [hw, hd]
    rw [e]
    exact check_all_ok _ [] rfl (by intro r hr; simp [manifest_records, fgets_lines, fgets_loop] at hr)
  | some entries =>
    have hde : dir_entries fs = entries := by simp [dir_entries, hd]
    rw [hde] at hnames hcache
    rw [update_crcfile_eq fs entries hw hd]
    simp only []
    have hrec : ∀ r ∈ entries.filterMap (update_record fs (load_crcfile fs)),
        plain_record r ∧ ∃ sb, fs.lookup r.filename = some sb ∧ u64 sb.st_mtime = r.mtime ∧
          calc_file_crc fs r.filename = some r.crc := by
      intro r hr
      obtain ⟨n, hn, hrn⟩ := List.mem_filterMap.1 hr
      obtain ⟨hname, sb, htr, hmt, hsrc⟩ := update_record_some fs _ n r hrn
      have hcalc : calc_file_crc fs n = some r.crc := by
        rcases hsrc with ⟨o, ho, hoc⟩ | ⟨_, hcal⟩
        · rw [hoc]
          exact hcache n hn sb htr o ho
        · exact hcal
      refine ⟨⟨calc_file_crc_lt fs n r.crc hcalc, ?_, ?_⟩, sb, ?_, hmt.symm, ?_⟩
      · rw [hmt]
        exact u64_lt _
      · rw [hname]
        exact hnames n hn sb htr
      · rw [hname]
        exact htr.2.1
      · rw [hname]
        exact hcalc
    apply check_all_ok _ _ rfl
    rw [manifest_records_written _ (fun r hr => (hrec r hr).1)]
    intro r hr
    obtain ⟨_, sb, hl, hm, hcalc⟩ := hrec r hr
    unfold spec_outcome
    have hcalc2 : calc_file_crc
        { fs with crcs := some ((entries.filterMap
            (update_record fs (load_crcfile fs))).map fprintf_record).flatten }
        r.filename = some r.crc := by
      exact (calc_file_crc_congr _ fs rfl _).trans hcalc
    simp only [hl, hm, hcalc2]
    simp


/-- The name `a` is plain. -/
theorem plain_name_a : plain_name name_a := by
  refine ⟨by decide!, by decide!, by decide!, ?_⟩
  intro c hc
  simp only [name_a, List.head?_cons, Option.mem_def, Option.some.injEq] at hc
  subst hc
  decide!

/-- The only tracked file of `fs_a` is `a`. -/
theorem fs_a_tracked_name (n : List Byte) (sb : File) (h : tracked fs_a n sb) :
    n = name_a ∧ sb = file_a := by
  obtain ⟨_, h2, _⟩ := h
  by_cases hn : n = name_a
  · subst hn
    have h3 : fs_a.lookup name_a = some file_a := by decide!
    rw [h3] at h2
    exact ⟨rfl, (Option.some.inj h2).symm⟩
  · have h3 : fs_a.lookup n = none := by simp [fs_a, hn]
    rw [h3] at h2
    exact absurd h2 (by simp)

/-- An instance: the directory `fs_a`, which has no previous manifest. -/
theorem update_then_check_witness :
    fs_a.crcs_writable = true ∧ (check_crcfile (update_crcfile fs_a).fs).1 = 0 :=
  ⟨rfl, (update_then_check fs_a rfl
    (fun n _ sb h => by rw [(fs_a_tracked_name n sb h).1]; exact plain_name_a)
    (fun n _ sb _ old ho => by simp [find_old_crcs, load_crcfile, fs_a] at ho)).1⟩

/-! ## Update twice -/

theorem update_record_congr (fs1 fs2 : FileSystem) (h : fs1.lookup = fs2.lookup)
    (old_crcs : Option (List crc_entry)) (n : List Byte) :
    update_record fs1 old_crcs n = update_record fs2 old_crcs n := by
  unfold update_record
  rw [h, calc_file_crc_congr fs1 fs2 h]

theorem update_calls_congr (fs1 fs2 : FileSystem) (h : fs1.lookup = fs2.lookup)
    (old_crcs : Option (List crc_entry)) (n : List Byte) :
    update_calls fs1 old_crcs n = update_calls fs2 old_crcs n := by
  unfold update_calls
  rw [h]

theorem index_entry_congr (fs1 fs2 : FileSystem) (h : fs1.lookup = fs2.lookup) (r : Record) :
    index_entry fs1 r = index_entry fs2 r := by
  unfold index_entry
  rw [h]

/-- The loop body of `update_crcfile` on a tracked file whose identity is in the
index: the record is made from the index entry, `calc_file_crc` is not called. -/
theorem update_record_hit (fs : FileSystem) (old_crcs : Option (List crc_entry))
    (n : List Byte) (sb : File) (ht : tracked fs n sb) (e : crc_entry)
    (he : find_old_crcs old_crcs sb.st_ino (u64 sb.st_mtime) = some e) :
    update_record fs old_crcs n = some ⟨e.crc, e.mtime, n⟩ ∧
      update_calls fs old_crcs n = [] := by
  obtain ⟨h1, h2, h3⟩ := ht
  unfold update_record update_calls
  simp only [h1, if_false, h2, h3, Bool.true_eq_false, he]
  simp

theorem update_record_tracked (fs : FileSystem) (old_crcs : Option (List crc_entry))
    (n : List Byte) (sb : File) (ht : tracked fs n sb) (c : Nat)
    (hc : calc_file_crc fs n = some c) :
    ∃ r, update_record fs old_crcs n = some r := by
  obtain ⟨h1, h2, h3⟩ := ht
  unfold update_record
  simp only [h1, if_false, h2, h3, Bool.true_eq_false, hc]
  cases find_old_crcs old_crcs sb.st_ino (u64 sb.st_mtime) with
  | none => exact ⟨_, rfl⟩
  | some o => exact ⟨_, rfl⟩

/-- Second run of the loop body of `update_crcfile`, with the index made from the
records of the first run: the same record, and no call of `calc_file_crc`. -/
theorem update_record_again (fs : FileSystem) (old0 : Option (List crc_entry))
    (entries : List (List Byte))
    (hread : ∀ n ∈ entries, ∀ sb, tracked fs n sb → ∃ c, calc_file_crc fs n = some c)
    (hino : ∀ n ∈ entries, ∀ sb, tracked fs n sb → sb.st_ino ≠ 0)
    (hsame : ∀ n1 ∈ entries, ∀ n2 ∈ entries, ∀ sb1 sb2, tracked fs n1 sb1 → tracked fs n2 sb2 →
      sb1.st_ino = sb2.st_ino → u64 sb1.st_mtime = u64 sb2.st_mtime →
      calc_file_crc fs n1 = calc_file_crc fs n2)
    (n : List Byte) (hn : n ∈ entries) :
    update_record fs
        (some ((entries.filterMap (update_record fs old0)).filterMap (index_entry fs))) n
      = update_record fs old0 n ∧
    update_calls fs
        (some ((entries.filterMap (update_record fs old0)).filterMap (index_entry fs))) n
      = [] := by
  by_cases htr : ∃ sb, tracked fs n sb
  · obtain ⟨sb, ht⟩ := htr
    obtain ⟨c, hc⟩ := hread n hn sb ht
    obtain ⟨r, hr⟩ := update_record_tracked fs old0 n sb ht c hc
    obtain ⟨hrn, sb2, ht2, hrm, hsrc⟩ := update_record_some fs old0 n r hr
    have hsb : sb2 = sb := by
      have := ht2.2.1
      rw [ht.2.1] at this
      exact (Option.some.inj this).symm
    subst hsb
    -- the entries of the new index come from tracked files
    have hidx : ∀ e ∈ (entries.filterMap (update_record fs old0)).filterMap (index_entry fs),
        ∃ n1 ∈ entries, ∃ r1 sb1, update_record fs old0 n1 = some r1 ∧ tracked fs n1 sb1 ∧
          e = ⟨sb1.st_ino, r1.mtime, r1.crc⟩ := by
      intro e he
      obtain ⟨r1, hr1, sb1, hl1, he1⟩ := (mem_index_entries fs _ e).1 he
      obtain ⟨n1, hn1, hrn1⟩ := List.mem_filterMap.1 hr1
      obtain ⟨hname1, sb3, ht3, _, _⟩ := update_record_some fs old0 n1 r1 hrn1
      have : sb3 = sb1 := by
        have h3 := ht3.2.1
        rw [← hname1, hl1] at h3
        exact (Option.some.inj h3).symm
      subst this
      exact ⟨n1, hn1, r1, sb3, hrn1, ht3, he1⟩
    have hnz : ∀ e ∈ (entries.filterMap (update_record fs old0)).filterMap (index_entry fs),
        e.ino ≠ 0 := by
      intro e he
      obtain ⟨n1, hn1, r1, sb1, _, ht1, he1⟩ := hidx e he
      rw [he1]
      exact hino n1 hn1 sb1 ht1
    have hmem : (⟨sb2.st_ino, r.mtime, r.crc⟩ : crc_entry)
        ∈ (entries.filterMap (update_record fs old0)).filterMap (index_entry fs) := by
      apply (mem_index_entries fs _ _).2
      refine ⟨r, List.mem_filterMap.2 ⟨n, hn, hr⟩, sb2, ?_, rfl⟩
      rw [hrn]
      exact ht.2.1
    obtain ⟨e1, he1⟩ := find_old_of_mem _ sb2.st_ino (u64 sb2.st_mtime) hnz _ hmem rfl hrm
    obtain ⟨he1mem, he1ino, he1mt⟩ := find_old_mem _ _ _ _ he1
    obtain ⟨n1, hn1, r1, sb1, hrn1, ht1, hee⟩ := hidx e1 he1mem
    obtain ⟨_, sb4, ht4, hrm1, hsrc1⟩ := update_record_some fs old0 n1 r1 hrn1
    have hsb4 : sb4 = sb1 := by
      have h4 := ht4.2.1
      rw [ht1.2.1] at h4
      exact (Option.some.inj h4).symm
    subst hsb4
    have hino1 : sb4.st_ino = sb2.st_ino := by
      rw [hee] at he1ino
      exact he1ino
    have hmt1 : u64 sb4.st_mtime = u64 sb2.st_mtime := by
      rw [hee] at he1mt
      rw [← hrm1]
      exact he1mt
    have hcrc : r1.crc = r.crc := by
      rw [hino1, hmt1] at hsrc1
      rcases hsrc with ⟨o, ho, hoc⟩ | ⟨hnone, hcal⟩
      · rcases hsrc1 with ⟨o1, ho1, hoc1⟩ | ⟨hnone1, _⟩
        · rw [ho] at ho1
          rw [hoc, hoc1, ← Option.some.inj ho1]
        · rw [ho] at hnone1
          exact absurd hnone1 (by simp)
      · rcases hsrc1 with ⟨o1, ho1, _⟩ | ⟨_, hcal1⟩
        · rw [hnone] at ho1
          exact absurd ho1 (by simp)
        · have := hsame n1 hn1 n hn sb4 sb2 ht1 ht hino1 hmt1
          rw [hcal1, hcal] at this
          exact Option.some.inj this
    have hit := update_record_hit fs
      (some ((entries.filterMap (update_record fs old0)).filterMap (index_entry fs)))
      n sb2 ht e1 (by simpa [find_old_crcs] using he1)
    refine ⟨?_, hit.2⟩
    rw [hit.1, hr, hee]
    simp only [Option.some.injEq]
    have hr_eq : r = ⟨r.crc, r.mtime, r.filename⟩ := rfl
    rw [hr_eq, hrn, hcrc, hrm1, hmt1, ← hrm]
  · have hnone : ∀ sb, ¬ tracked fs n sb := fun sb h => htr ⟨sb, h⟩
    rw [(update_record_none_calls fs _ n hnone).1, (update_record_none_calls fs old0 n hnone).1]
    exact ⟨rfl, (update_record_none_calls fs _ n hnone).2⟩


theorem sscanf_line_crc_lt (lb : List Byte) (r : Record) (h : sscanf_line lb = some r) :
    r.crc < 2 ^ 32 := by
  unfold sscanf_line at h
  cases h1 : scan_unsigned 16 (cstr lb) with
  | none => simp [h1] at h
  | some p1 =>
    obtain ⟨x, s1⟩ := p1
    simp only [h1] at h
    cases h2 : scan_unsigned 10 (skip_space s1) with
    | none => simp [h2] at h
    | some p2 =>
      obtain ⟨t, s2⟩ := p2
      simp only [h2] at h
      cases h3 : scan_set 255 (skip_space s2) with
      | none => simp [h3] at h
      | some p3 =>
        obtain ⟨name, rest⟩ := p3
        simp only [h3, Option.some.injEq] at h
        subst h
        exact Nat.mod_lt _ (by decide)

theorem index_crc_lt (fs : FileSystem) (ino mtime : Nat) (e : crc_entry)
    (h : find_old_crcs (load_crcfile fs) ino mtime = some e) : e.crc < 2 ^ 32 := by
  obtain ⟨r, hr, _, _, _, _, hc, _⟩ := (find_old_crcs_spec fs ino mtime).1 e h
  rw [hc]
  unfold previous_records at hr
  cases hm : fs.crcs with
  | none => simp [hm] at hr
  | some content =>
    simp only [hm, manifest_records] at hr
    obtain ⟨lb, _, hlb⟩ := List.mem_filterMap.1 hr
    exact sscanf_line_crc_lt lb r hlb

/-- The records written by `update_crcfile` for tracked files of plain names are
plain. -/
theorem update_records_plain (fs : FileSystem) (entries : List (List Byte))
    (hnames : ∀ n ∈ entries, ∀ sb, tracked fs n sb → plain_name n) :
    ∀ r ∈ entries.filterMap (update_record fs (load_crcfile fs)), plain_record r := by
  intro r hr
  obtain ⟨n, hn, hrn⟩ := List.mem_filterMap.1 hr
  obtain ⟨hname, sb, htr, hmt, hsrc⟩ := update_record_some fs _ n r hrn
  refine ⟨?_, ?_, ?_⟩
  · rcases hsrc with ⟨o, ho, hoc⟩ | ⟨_, hcal⟩
    · rw [hoc]
      exact index_crc_lt fs _ _ o ho
    · exact calc_file_crc_lt fs n r.crc hcal
  · rw [hmt]
    exact u64_lt _
  · rw [hname]
    exact hnames n hn sb htr

/-! ## Update twice: claims -/

/-- C8, as stated, fails: the directory `fs_locked` holds one regular file, which
cannot be opened; the first run of `update_crcfile` writes no record for it, and
the second run, finding it in no index, calls `calc_file_crc` on it again. -/
theorem update_twice_counterexample :
    fs_locked.lookup name_a = some file_locked ∧ file_locked.is_reg = true ∧
      (update_crcfile (update_crcfile fs_locked).fs).calc_calls = [name_a] := by
  decide!

/-- C8, amended: for every directory state in which the manifest can be written,
every tracked file has a plain name (no newline in it, no white space at its head),
can be read by `calc_file_crc`, has an inode number other than 0, and any two
tracked files with the same inode number and modification time have the same
checksum, running `update_crcfile` twice in a row with no change in between and
the same enumeration order writes the second time a manifest identical to the
first, and the second run makes no call of `calc_file_crc`. -/
theorem update_twice (fs : FileSystem) (hw : fs.crcs_writable = true)
    (hnames : ∀ n ∈ dir_entries fs, ∀ sb, tracked fs n sb → plain_name n)
    (hread : ∀ n ∈ dir_entries fs, ∀ sb, tracked fs n sb →
      ∃ c, calc_file_crc fs n = some c)
    (hino : ∀ n ∈ dir_entries fs, ∀ sb, tracked fs n sb → sb.st_ino ≠ 0)
    (hsame : ∀ n1 ∈ dir_entries fs, ∀ n2 ∈ dir_entries fs, ∀ sb1 sb2,
      tracked fs n1 sb1 → tracked fs n2 sb2 →
      sb1.st_ino = sb2.st_ino → u64 sb1.st_mtime = u64 sb2.st_mtime →
      calc_file_crc fs n1 = calc_file_crc fs n2) :
    (update_crcfile (update_crcfile fs).fs).fs.crcs = (update_crcfile fs).fs.crcs ∧
      (update_crcfile (update_crcfile fs).fs).calc_calls = [] := by
  cases hd : fs.dir with
  | none =>
    have e : update_crcfile fs = ⟨1, { fs with crcs := some [] }, []⟩ := by
      unfold update_crcfile
      simp [hw, hd]
    have e2 : update_crcfile { fs with crcs := some [] }
        = ⟨1, { fs with crcs := some [] }, []⟩ := by
      unfold update_crcfile
      simp [hw, hd]
    rw [e]
    simp only []
    rw [e2]
    exact ⟨rfl, rfl⟩
  | some entries =>
    have hde : dir_entries fs = entries := by simp [dir_entries, hd]
    rw [hde] at hnames hread hino hsame
    have hplain := update_records_plain fs entries hnames
    have hagain := update_record_again fs (load_crcfile fs) entries hread hino hsame
    obtain ⟨fs1, hfs1⟩ : ∃ fs1 : FileSystem, fs1 = { fs with crcs := some ((entries.filterMap
        (update_record fs (load_crcfile fs))).map fprintf_record).flatten } := ⟨_, rfl⟩
    have hl1 : fs1.lookup = fs.lookup := by rw [hfs1]
    have hc1 : fs1.crcs = some ((entries.filterMap
        (update_record fs (load_crcfile fs))).map fprintf_record).flatten := by rw [hfs1]
    have hw1 : fs1.crcs_writable = true := by rw [hfs1]; exact hw
    have hd1 : fs1.dir = some entries := by rw [hfs1]; exact hd
    have e1 : update_crcfile fs
        = ⟨0, fs1, (entries.map (update_calls fs (load_crcfile fs))).flatten⟩ := by
      rw [hfs1]
      exact update_crcfile_eq fs entries hw hd
    have hload : load_crcfile fs1
        = some ((entries.filterMap (update_record fs (load_crcfile fs))).filterMap
            (index_entry fs)) := by
      rw [load_crcfile_eq fs1 _ hc1, manifest_records_written _ hplain]
      congr 1
      apply List.filterMap_congr
      intro r _
      exact index_entry_congr fs1 fs hl1 r
    have hR : entries.filterMap (update_record fs1 (load_crcfile fs1))
        = entries.filterMap (update_record fs (load_crcfile fs)) := by
      apply List.filterMap_congr
      intro n hn
      rw [hload, update_record_congr fs1 fs hl1]
      exact (hagain n hn).1
    have hC : (entries.map (update_calls fs1 (load_crcfile fs1))).flatten = [] := by
      rw [List.flatten_eq_nil_iff]
      intro l hl
      obtain ⟨n, hn, rfl⟩ := List.mem_map.1 hl
      rw [hload, update_calls_congr fs1 fs hl1]
      exact (hagain n hn).2
    have e2 := update_crcfile_eq fs1 entries hw1 hd1
    rw [hR, hC] at e2
    rw [e1]
    simp only []
    rw [e2]
    exact ⟨hc1.symm, rfl⟩

/-- An instance: the directory `fs_a`, which has no previous manifest. -/
theorem update_twice_witness :
    fs_a.crcs_writable = true ∧
      (update_crcfile (update_crcfile fs_a).fs).fs.crcs = (update_crcfile fs_a).fs.crcs ∧
      (update_crcfile (update_crcfile fs_a).fs).calc_calls = [] :=
  ⟨rfl, update_twice fs_a rfl
    (fun n _ sb h => by rw [(fs_a_tracked_name n sb h).1]; exact plain_name_a)
    (fun n _ sb h => by rw [(fs_a_tracked_name n sb h).1]; exact ⟨0xa016d052, by decide!⟩)
    (fun n _ sb h => by rw [(fs_a_tracked_name n sb h).2]; decide)
    (fun n1 _ n2 _ sb1 sb2 h1 h2 _ _ => by
      rw [(fs_a_tracked_name n1 sb1 h1).1, (fs_a_tracked_name n2 sb2 h2).1])⟩


/-! ## The checksum engine: chunks, residue and test vectors -/

theorem foldl_crc32b_eq (buf : List Byte) (crc : Nat) (h : crc < 2 ^ 32) :
    buf.foldl crc32b crc = buf.foldl crc32c_spec_byte crc := by
  induction buf generalizing crc with
  | nil => simp only [List.foldl_nil]
  | cons b buf ih =>
    simp only [List.foldl_cons]
    rw [crc32b_eq_spec_byte crc b h]
    exact ih _ (crc32c_spec_byte_lt crc b h)

theorem leValue_le_bytes32 (v : Nat) (h : v < 2 ^ 32) : leValue (le_bytes32 v) = v := by
  simp only [leValue, le_bytes32, List.foldr_cons, List.foldr_nil, Fin.ofNat, Fin.val_mk]
  omega

theorem crc32c_spec_append (b t : List Byte) :
    crc32c_spec (b ++ t)
      = crc32c_shifts (8 * t.length)
          ((b.foldl crc32c_spec_byte 0xFFFFFFFF) ^^^ leValue t) ^^^ 0xFFFFFFFF := by
  unfold crc32c_spec
  rw [List.foldl_append, crc32c_shifts_leValue]

theorem xor_xor_cancel (r f : Nat) : r ^^^ (r ^^^ f) = f := by
  rw [← Nat.xor_assoc, Nat.xor_self, Nat.zero_xor]

/-- The checksum of a message followed by its own checksum, for the checksum as
the specification words it. -/
theorem crc32c_spec_residue (b : List Byte) :
    crc32c_spec (b ++ le_bytes32 (crc32c_spec b)) = 0x48674BC7 := by
  have hlt : crc32c_spec b < 2 ^ 32 := by
    unfold crc32c_spec
    exact Nat.xor_lt_two_pow (foldl_spec_byte_lt b _ (by decide)) (by decide)
  rw [crc32c_spec_append, leValue_le_bytes32 _ hlt]
  have e : (b.foldl crc32c_spec_byte 0xFFFFFFFF) ^^^ crc32c_spec b = 0xFFFFFFFF := by
    unfold crc32c_spec
    exact xor_xor_cancel _ _
  have hlen : 8 * (le_bytes32 (crc32c_spec b)).length = 32 := rfl
  rw [e, hlen]
  decide!

/-- C14: for every byte sequence and every 32-bit starting register value, the
register produced by the two loops of `crc32c_hw` (while at least 32 bytes remain,
four chained `crc32q` on consecutive 8-byte little-endian words; then one `crc32b`
per remaining byte) is the register produced by `crc32b` on every byte in order; the
first loop leaves fewer than 32 bytes; and one `crc32q` on an 8-byte word is the
64-bit reflected reduction (64 right-shift steps on the register xor the word) and
equals eight `crc32b` on its bytes, lowest address first. -/
theorem crc32c_hw_chunked (buf : List Byte) (crc : Nat) (h : crc < 2 ^ 32) :
    crc32c_hw_loop1 (crc32c_hw_loop32 buf.length crc buf).1
        (crc32c_hw_loop32 buf.length crc buf).2 = buf.foldl crc32b crc ∧
    (crc32c_hw_loop32 buf.length crc buf).2.length < 32 ∧
    ∀ w : List Byte, w.length = 8 →
      crc32q crc (load64 w) = crc32c_shifts 64 (crc ^^^ load64 w) ∧
      crc32q crc (load64 w) = w.foldl crc32b crc := by
  refine ⟨?_, crc32c_hw_loop32_rest _ _ _ (Nat.le_refl _), ?_⟩
  · rw [crc32c_hw_loops_eq _ _ _ h, foldl_crc32b_eq _ _ h]
  · intro w hw
    constructor
    · have hl : load64 w < 2 ^ 64 := Nat.mod_lt _ (by decide)
      unfold crc32q
      rw [crc32_insn_eq_shifts, Nat.mod_eq_of_lt h, Nat.mod_eq_of_lt hl]
    · rw [crc32q_load64 crc w h (by omega), foldl_crc32b_eq _ _ h]
      have : w.take 8 = w := List.take_of_length_le (by omega)
      rw [this]

/-- An instance: 41 bytes from the initial register, and the word `01 02 .. 08`. -/
theorem crc32c_hw_chunked_witness :
    (0xffffffff < 2 ^ 32 ∧ word_bytes.length = 8) ∧
    crc32c_hw_loop1 (crc32c_hw_loop32 bytes41.length 0xffffffff bytes41).1
        (crc32c_hw_loop32 bytes41.length 0xffffffff bytes41).2
      = bytes41.foldl crc32b 0xffffffff ∧
    crc32q 0xffffffff (load64 word_bytes) = word_bytes.foldl crc32b 0xffffffff :=
  ⟨⟨by decide, by decide⟩, (crc32c_hw_chunked bytes41 0xffffffff (by decide)).1,
    ((crc32c_hw_chunked bytes41 0xffffffff (by decide)).2.2 word_bytes (by decide)).2⟩

/-- C16: for every byte sequence `b` (in buffers that satisfy the assertion of
`crc32c_hw`), `crc32c_hw` applied to `b` followed by the four bytes of `crc32c_hw(b)`
in little-endian order returns the constant `0x48674BC7`, whatever `b`. -/
theorem crc32c_hw_residue (addr1 addr2 : Nat) (b : List Byte) (h1 : addr1 % 8 = 0)
    (h2 : addr2 % 8 = 0) :
    ∃ c, crc32c_hw addr1 b = some c ∧
      crc32c_hw addr2 (b ++ le_bytes32 c) = some 0x48674BC7 := by
  refine ⟨crc32c_spec b, ?_, ?_⟩
  · unfold crc32c_hw
    rw [if_pos h1, crc32c_hw_run_eq_spec]
  · unfold crc32c_hw
    rw [if_pos h2, crc32c_hw_run_eq_spec, crc32c_spec_residue]

/-- An instance: the message `123456789`, whose checksum is stored as
`83 92 06 e3`. -/
theorem crc32c_hw_residue_witness :
    (0 % 8 = 0 ∧ 4096 % 8 = 0) ∧ le_bytes32 0xE3069283 = [0x83, 0x92, 0x06, 0xe3] ∧
    ∃ c, crc32c_hw 0 ascii_123456789 = some c ∧
      crc32c_hw 4096 (ascii_123456789 ++ le_bytes32 c) = some 0x48674BC7 :=
  ⟨⟨by decide, by decide⟩, by decide!,
    crc32c_hw_residue 0 4096 ascii_123456789 (by decide) (by decide)⟩

/-- C17: `crc32c_hw` applied to the nine ASCII bytes `123456789` (in a buffer that
satisfies its assertion) returns `0xE3069283`; the 32-byte loop does not run, the
nine bytes go through `crc32b`. -/
theorem crc32c_hw_check_value (addr : Nat) (h : addr % 8 = 0) :
    crc32c_hw addr ascii_123456789 = some 0xE3069283 ∧
      crc32c_hw_loop32 ascii_123456789.length 0xffffffff ascii_123456789
        = (0xffffffff, ascii_123456789) := by
  refine ⟨?_, by decide!⟩
  unfold crc32c_hw
  rw [if_pos h]
  decide!

/-- An instance: the buffer at address 4096. -/
theorem crc32c_hw_check_value_witness :
    4096 % 8 = 0 ∧ crc32c_hw 4096 ascii_123456789 = some 0xE3069283 :=
  ⟨by decide, (crc32c_hw_check_value 4096 (by decide)).1⟩

/-- C18: `crc32c_hw` applied to 32 bytes `0x00` (in a buffer that satisfies its
assertion) returns `0x8A9136AA`; the 32 bytes are consumed by one round of the four
chained `crc32q`, none is left to `crc32b`. -/
theorem crc32c_hw_zeros32 (addr : Nat) (h : addr % 8 = 0) :
    crc32c_hw addr zeros32 = some 0x8A9136AA ∧
      (crc32c_hw_loop32 zeros32.length 0xffffffff zeros32).2 = [] ∧
      (crc32c_hw_loop32 1 0xffffffff zeros32).2 = [] := by
  refine ⟨?_, by decide!, by decide!⟩
  unfold crc32c_hw
  rw [if_pos h]
  decide!

/-- An instance: the buffer at address 4096. -/
theorem crc32c_hw_zeros32_witness :
    4096 % 8 = 0 ∧ crc32c_hw 4096 zeros32 = some 0x8A9136AA :=
  ⟨by decide, (crc32c_hw_zeros32 4096 (by decide)).1⟩


/-! ## `calc_file_crc` and `calc` -/

theorem calc_file_crc_of_file (fs : FileSystem) (filename : List Byte) (f : File)
    (hl : fs.lookup filename = some f) (hne : f.data ≠ []) :
    (calc_file_crc fs filename = none ↔
      (f.can_open = false ∨ f.can_fstat = false ∨ f.map_page = none)) ∧
    ∀ page, f.can_open = true → f.can_fstat = true → f.map_page = some page →
      calc_file_crc fs filename = crc32c_hw (4096 * page) f.data ∧
      calc_file_crc fs filename = some (crc32c_hw_run f.data) := by
  have hlen : f.data.length ≠ 0 := fun h => hne (List.eq_nil_of_length_eq_zero h)
  have hrun : ∀ page, crc32c_hw (4096 * page) f.data = some (crc32c_hw_run f.data) := by
    intro page
    unfold crc32c_hw
    rw [if_pos (by omega : 4096 * page % 8 = 0)]
  constructor
  · unfold calc_file_crc mmap
    simp only [hl, hlen, if_false, List.take_length]
    cases ho : f.can_open with
    | false => simp
    | true =>
      cases hf : f.can_fstat with
      | false => simp
      | true =>
        cases hp : f.map_page with
        | none => simp
        | some page => simp [hrun]
  · intro page ho hf hp
    have e : calc_file_crc fs filename = crc32c_hw (4096 * page) f.data := by
      unfold calc_file_crc mmap
      simp only [hl, ho, hf, hp, hlen, if_false, List.take_length]
      simp
    exact ⟨e, e.trans (hrun page)⟩

/-- The checksum stored by `calc_file_crc` is the one of the whole contents. -/
theorem calc_file_crc_value (fs : FileSystem) (filename : List Byte) (f : File) (c : Nat)
    (hl : fs.lookup filename = some f) (hc : calc_file_crc fs filename = some c) :
    c = crc32c_hw_run f.data := by
  unfold calc_file_crc at hc
  simp only [hl] at hc
  split at hc
  · exact absurd hc (by simp)
  · split at hc
    · exact absurd hc (by simp)
    · cases hm : mmap f f.data.length with
      | none => simp [hm] at hc
      | some p =>
        obtain ⟨addr, mem⟩ := p
        simp only [hm] at hc
        have hmem : mem = f.data := by
          unfold mmap at hm
          split at hm
          · exact absurd hm (by simp)
          · cases hp : f.map_page with
            | none => simp [hp] at hm
            | some page =>
              simp only [hp, Option.some.injEq, Prod.mk.injEq, List.take_length] at hm
              exact hm.2.symm
        subst hmem
        unfold crc32c_hw at hc
        split at hc
        · exact (Option.some.inj hc).symm
        · exact absurd hc (by simp)

/-- What `printf("%08x", crc)` writes for a 32-bit value: eight lower-case
hexadecimal digits, which read back as the value. -/
theorem print_hex8 (v : Nat) (hv : v < 2 ^ 32) :
    (print_unsigned 16 8 v).length = 8 ∧ (∀ c ∈ print_unsigned 16 8 v, lower_hex c) ∧
      scan_digits 16 (print_unsigned 16 8 v) 0 0 = (v, 8, []) := by
  obtain ⟨ds, _, hds, hval, hp, _, _⟩ :=
    print_unsigned_digits 16 (Or.inr rfl) 8 v (by unfold ULONG_MAX; omega)
  have hnd := number_digits_length 16 (by decide) 64 v 8 (by decide) (by omega)
  have hlen : (print_unsigned 16 8 v).length = 8 := by
    simp only [print_unsigned, List.length_map, List.length_append, List.length_replicate]
    omega
  refine ⟨hlen, ?_, ?_⟩
  · rw [hp]
    intro c hc
    obtain ⟨d, hd, rfl⟩ := List.mem_map.1 hc
    have h16 : d < 16 := hds d hd
    have hv2 := digit_char_val d h16
    unfold lower_hex
    by_cases h10 : d < 10
    · simp only [h10, if_true] at hv2
      left
      omega
    · simp only [h10, if_false] at hv2
      right
      omega
  · have hl2 : ds.length = 8 := by
      rw [hp, List.length_map] at hlen
      exact hlen
    have := scan_digits_map 16 (Or.inr rfl) ds hds [] 0 0
    rw [List.append_nil] at this
    rw [hp, this, hval, hl2]
    rfl

/-- C13, as stated, fails: the file `a` of `fs_nomap` holds one byte and can be
opened and examined with `fstat`, yet `calc_file_crc` returns failure on it, through
the branch taken when `mmap` returns `MAP_FAILED`, and `calc` exits with 1. -/
theorem calc_file_crc_counterexample :
    fs_nomap.lookup name_a = some file_nomap ∧ file_nomap.can_open = true ∧
      file_nomap.can_fstat = true ∧ calc_file_crc fs_nomap name_a = none ∧
      main_calc fs_nomap name_a = (1, []) := by
  decide!

/-- The empty file: `mmap` refuses a length of zero, so `calc_file_crc` returns
failure on a file that can be opened and examined with `fstat`. -/
theorem calc_file_crc_empty_file :
    fs_empty.lookup name_a = some file_empty ∧ file_empty.can_open = true ∧
      file_empty.can_fstat = true ∧ file_empty.map_page = some 3 ∧
      calc_file_crc fs_empty name_a = none := by
  decide!

/-- C13, amended: `calc_file_crc` returns failure when the path cannot be opened, and
on a non-empty file exactly when it cannot be opened, its metadata cannot be
retrieved, or it cannot be mapped; for every non-empty file that can be opened,
examined and mapped it returns 0 and stores the `crc32c_hw` of the entire contents,
so that `calc <filename>` exits with 0 and prints that checksum as 8 lower-case
hexadecimal digits. -/
theorem calc_file_crc_result (fs : FileSystem) (filename : List Byte) :
    (fs.lookup filename = none →
      calc_file_crc fs filename = none ∧ (main_calc fs filename).1 = 1) ∧
    ∀ f, fs.lookup filename = some f → f.data ≠ [] →
      (calc_file_crc fs filename = none ↔
        (f.can_open = false ∨ f.can_fstat = false ∨ f.map_page = none)) ∧
      (calc_file_crc fs filename = none → (main_calc fs filename).1 = 1) ∧
      ∀ page, f.can_open = true → f.can_fstat = true → f.map_page = some page →
        calc_file_crc fs filename = crc32c_hw (4096 * page) f.data ∧
        calc_file_crc fs filename = some (crc32c_hw_run f.data) ∧
        (main_calc fs filename).1 = 0 ∧
        (main_calc fs filename).2.length = 8 ∧
        (∀ c ∈ (main_calc fs filename).2, lower_hex c) ∧
        scan_digits 16 (main_calc fs filename).2 0 0 = (crc32c_hw_run f.data, 8, []) := by
  constructor
  · intro hl
    have e : calc_file_crc fs filename = none := by simp [calc_file_crc, hl]
    exact ⟨e, by simp [main_calc, e]⟩
  · intro f hl hne
    obtain ⟨h1, h2⟩ := calc_file_crc_of_file fs filename f hl hne
    refine ⟨h1, fun e => by simp [main_calc, e], ?_⟩
    intro page ho hf hp
    obtain ⟨e1, e2⟩ := h2 page ho hf hp
    have hlt := crc32c_hw_run_lt f.data
    obtain ⟨p1, p2, p3⟩ := print_hex8 (crc32c_hw_run f.data) hlt
    have em : main_calc fs filename = (0, print_unsigned 16 8 (crc32c_hw_run f.data)) := by
      simp only [main_calc, e2, Nat.mod_eq_of_lt hlt]
    rw [em]
    exact ⟨e1, e2, rfl, p1, p2, p3⟩

/-- An instance: the file `a` of `fs_a`, for which `calc` prints `a016d052`. -/
theorem calc_file_crc_result_witness :
    (fs_a.lookup name_a = some file_a ∧ file_a.data ≠ [] ∧ file_a.can_open = true ∧
      file_a.can_fstat = true ∧ file_a.map_page = some 3) ∧
    main_calc fs_a name_a = (0, [97, 48, 49, 54, 100, 48, 53, 50]) ∧
    (main_calc fs_a name_a).2.length = 8 ∧
    (fs_a.lookup [98] = none ∧ calc_file_crc fs_a [98] = none) :=
  ⟨by decide!, by decide!,
    (((calc_file_crc_result fs_a name_a).2 file_a (by decide!) (by decide!)).2.2
      3 rfl rfl rfl).2.2.2.1,
    by decide!, ((calc_file_crc_result fs_a [98]).1 (by decide!)).1⟩


/-! ## Check after the deletion of a file -/

theorem calc_file_crc_lookup (fs1 fs2 : FileSystem) (name : List Byte)
    (h : fs1.lookup name = fs2.lookup name) :
    calc_file_crc fs1 name = calc_file_crc fs2 name := by
  unfold calc_file_crc
  rw [h]

theorem spec_outcome_lookup (fs1 fs2 : FileSystem) (r : Record)
    (h : fs1.lookup r.filename = fs2.lookup r.filename) :
    spec_outcome fs1 r = spec_outcome fs2 r := by
  unfold spec_outcome
  rw [h, calc_file_crc_lookup fs1 fs2 r.filename h]

theorem unlink_lookup_self (fs : FileSystem) (d : List Byte) :
    (unlink fs d).lookup d = none := by
  simp [unlink]

theorem unlink_lookup_other (fs : FileSystem) (d n : List Byte) (h : n ≠ d) :
    (unlink fs d).lookup n = fs.lookup n := by
  simp [unlink, h]

/-- C12: for every manifest whose records have distinct file names, after the file
named by one record (a tracked file, hence not the manifest itself) is deleted,
`check_crcfile` classifies that record as `NotFound` and every other record as before
the deletion. -/
theorem check_after_unlink (fs : FileSystem) (content : List Byte) (d : List Byte)
    (r : Record) (hc : fs.crcs = some content)
    (hnodup : ((manifest_records content).map Record.filename).Nodup)
    (hr : r ∈ manifest_records content) (hd : r.filename = d) (hm : d ≠ CRCS) :
    spec_outcome (unlink fs d) r = Outcome.NotFound ∧
    (∀ r2 ∈ manifest_records content, r2 ≠ r →
      spec_outcome (unlink fs d) r2 = spec_outcome fs r2) ∧
    (check_crcfile fs).2.report
      = (manifest_records content).map (fun r2 => (spec_outcome fs r2, r2.filename)) ∧
    (check_crcfile (unlink fs d)).2.report
      = (manifest_records content).map
          (fun r2 => (if r2 = r then Outcome.NotFound else spec_outcome fs r2, r2.filename)) := by
  have h1 : spec_outcome (unlink fs d) r = Outcome.NotFound := by
    unfold spec_outcome
    rw [hd, unlink_lookup_self]
  have h2 : ∀ r2 ∈ manifest_records content, r2 ≠ r →
      spec_outcome (unlink fs d) r2 = spec_outcome fs r2 := by
    intro r2 hr2 hne
    apply spec_outcome_lookup
    apply unlink_lookup_other
    intro he
    exact hne (List.inj_on_of_nodup_map hnodup hr2 hr (he.trans hd.symm))
  refine ⟨h1, h2, (check_counters fs content hc).2.2.2.2, ?_⟩
  have hc2 : (unlink fs d).crcs = some content := by simp [unlink, hm, hc]
  rw [(check_counters (unlink fs d) content hc2).2.2.2.2]
  apply List.map_congr_left
  intro r2 hr2
  by_cases he : r2 = r
  · rw [if_pos he, he, h1]
  · rw [if_neg he, h2 r2 hr2 he]

/-- An instance: the directory `fs_ab`, in which the file `a` is deleted; the record of
`b` stays `Ok`. -/
theorem check_after_unlink_witness :
    (manifest_records (line_a ++ fprintf_line (crc32c_spec [2]) 8 name_b)
        = [⟨0xa016d052, 7, name_a⟩, ⟨crc32c_spec [2], 8, name_b⟩]) ∧
    (check_crcfile fs_ab).2.report = [(Outcome.Ok, name_a), (Outcome.Ok, name_b)] ∧
    (check_crcfile (unlink fs_ab name_a)).2.report
      = (manifest_records (line_a ++ fprintf_line (crc32c_spec [2]) 8 name_b)).map
          (fun r2 => (if r2 = ⟨0xa016d052, 7, name_a⟩ then Outcome.NotFound
            else spec_outcome fs_ab r2, r2.filename)) :=
  ⟨by decide!, by decide!,
    (check_after_unlink fs_ab (line_a ++ fprintf_line (crc32c_spec [2]) 8 name_b) name_a
      ⟨0xa016d052, 7, name_a⟩ rfl (by decide!) (by decide!) rfl (by decide!)).2.2.2⟩

/-! ## The bounds of the index array -/

theorem load_crcfile_writes_le (fs : FileSystem) (n : Nat) (lines : List (List Byte))
    (i : Nat) (h : i + lines.length ≤ n) :
    ∀ idx ∈ load_crcfile_writes fs n lines i, i ≤ idx ∧ idx ≤ n := by
  induction lines generalizing i with
  | nil =>
    intro idx hidx
    simp only [load_crcfile_writes, List.mem_singleton] at hidx
    simp only [List.length_nil] at h
    omega
  | cons lb lines ih =>
    simp only [List.length_cons] at h
    have ih0 := ih i (by omega)
    intro idx hidx
    unfold load_crcfile_writes at hidx
    rcases List.mem_cons.1 hidx with h0 | h0
    · omega
    · cases hs : sscanf_line lb with
      | none =>
        simp only [hs] at h0
        exact ih0 idx h0
      | some r =>
        simp only [hs] at h0
        cases hk : fs.lookup r.filename with
        | none =>
          simp only [hk] at h0
          exact ih0 idx h0
        | some sb =>
          simp only [hk] at h0
          rcases List.mem_cons.1 h0 with h1 | h1
          · omega
          · by_cases hbrk : i + 1 = n
            · simp only [hbrk, if_true, List.mem_singleton] at h1
              omega
            · simp only [hbrk, if_false] at h1
              have := ih (i + 1) (by omega) idx h1
              omega

/-- The last index addressed, the one of the terminator, is the number of entries
that `load_crcfile` has filled. -/
theorem load_crcfile_writes_last (fs : FileSystem) (n : Nat) (lines : List (List Byte))
    (crcs : List crc_entry) :
    (load_crcfile_writes fs n lines crcs.length).getLast?
      = some (load_crcfile_loop fs n lines crcs).length := by
  induction lines generalizing crcs with
  | nil => simp [load_crcfile_writes, load_crcfile_loop]
  | cons lb lines ih =>
    unfold load_crcfile_writes load_crcfile_loop
    cases hs : sscanf_line lb with
    | none =>
      simp only []
      rw [List.getLast?_cons, ih crcs]
      rfl
    | some r =>
      simp only []
      cases hk : fs.lookup r.filename with
      | none =>
        simp only []
        rw [List.getLast?_cons, ih crcs]
        rfl
      | some sb =>
        simp only []
        have hlen : (crcs ++ [crc_entry.mk sb.st_ino r.mtime r.crc]).length
            = crcs.length + 1 := by simp
        by_cases hbrk : crcs.length + 1 = n
        · have hb2 : (crcs ++ [crc_entry.mk sb.st_ino r.mtime r.crc]).length = n := by
            rw [hlen]
            exact hbrk
          simp only [hbrk, hb2, if_true]
          rw [← hb2]
          rfl
        · have hb2 : ¬ (crcs ++ [crc_entry.mk sb.st_ino r.mtime r.crc]).length = n := by
            rw [hlen]
            exact hbrk
          simp only [hbrk, hb2, if_false]
          have := ih (crcs ++ [crc_entry.mk sb.st_ino r.mtime r.crc])
          rw [hlen] at this
          rw [List.getLast?_cons, List.getLast?_cons, this]
          rfl

/-- C15: for every manifest content read as `n` lines by `fgets`, `load_crcfile`
allocates `n + 1` entries and its entry counter `i` never exceeds `n`: every index
at which `crcs[i]` is addressed inside the loop, and the index of the terminator
`crcs[i].ino = 0`, which is the number of entries filled, lies within `0..n`. -/
theorem load_crcfile_bounds (fs : FileSystem) (content : List Byte) :
    load_crcfile_alloc content = (fgets_lines content).length + 1 ∧
    (∀ idx ∈ load_crcfile_writes fs (fgets_lines content).length (fgets_lines content) 0,
      idx ≤ (fgets_lines content).length ∧ idx < load_crcfile_alloc content) ∧
    (load_crcfile_writes fs (fgets_lines content).length (fgets_lines content) 0).getLast?
      = some (load_crcfile_loop fs (fgets_lines content).length
          (fgets_lines content) []).length ∧
    (load_crcfile_loop fs (fgets_lines content).length (fgets_lines content) []).length
      ≤ (fgets_lines content).length := by
  have hw := load_crcfile_writes_le fs (fgets_lines content).length (fgets_lines content) 0
    (by omega)
  have hl := load_crcfile_writes_last fs (fgets_lines content).length (fgets_lines content) []
  refine ⟨rfl, ?_, hl, ?_⟩
  · intro idx hidx
    have := hw idx hidx
    unfold load_crcfile_alloc
    omega
  · have hmem := List.mem_of_getLast?_eq_some hl
    exact (hw _ hmem).2


/-! ## The manifest written by `update_crcfile` -/

theorem update_record_eq_spec (fs : FileSystem) (n : List Byte) :
    update_record fs (load_crcfile fs) n = spec_update_record fs n := by
  unfold update_record spec_update_record
  by_cases h1 : n = CRCS
  · cases h2 : fs.lookup n with
    | none => simp [h1]
    | some f => simp [h1]
  · simp only [h1, if_false]
    cases h2 : fs.lookup n with
    | none => rfl
    | some f =>
      simp only []
      cases h3 : f.is_reg with
      | false => simp
      | true =>
        simp only [Bool.true_eq_false, if_false, ne_eq, h1, not_false_eq_true, and_self,
          if_true]
        cases h4 : find_old_crcs (load_crcfile fs) f.st_ino (u64 f.st_mtime) with
        | some hit =>
          simp only []
          rw [(find_old_crcs_mem _ _ _ _ h4).2]
        | none =>
          simp only []
          cases h5 : calc_file_crc fs n with
          | none => simp
          | some c =>
            simp only [Option.isSome_some, if_true]
            rw [calc_file_crc_value fs n f c h2 h5]

theorem update_calls_eq_spec (fs : FileSystem) (n : List Byte) :
    update_calls fs (load_crcfile fs) n = if spec_file_read fs n = true then [n] else [] := by
  unfold update_calls spec_file_read
  by_cases h1 : n = CRCS
  · cases h2 : fs.lookup n with
    | none => simp [h1]
    | some f => simp [h1]
  · simp only [h1, if_false]
    cases h2 : fs.lookup n with
    | none => simp
    | some f =>
      simp only []
      have key : ∀ x : Option crc_entry,
          (match x with
            | some _ => ([] : List (List Byte))
            | none => [n]) = if x.isNone = true then [n] else [] := by
        intro x
        cases x <;> rfl
      rw [key]
      by_cases h3 : f.is_reg = true
      · simp [h3, h1]
      · have h3f : f.is_reg = false := by simpa using h3
        simp [h3f]

theorem flatten_map_ite (p : List Byte → Bool) (l : List (List Byte)) :
    (l.map (fun n => if p n = true then [n] else [])).flatten = l.filter p := by
  induction l with
  | nil => rfl
  | cons n l ih =>
    simp only [List.map_cons, List.flatten_cons, ih, List.filter_cons]
    cases p n <;> simp

theorem load_crcfile_absent (fs : FileSystem) (ino mtime : Nat) :
    find_old_crcs (load_crcfile { fs with crcs := none }) ino mtime = none ∧
      find_old_crcs (load_crcfile { fs with crcs := some [] }) ino mtime = none := by
  constructor
  · rfl
  · rfl

/-- C11: for every directory state and previous manifest, when the manifest can be
opened for writing, `update_crcfile` writes in it, in directory enumeration order, the
line of one record for each directory entry that is a regular file, is not named
`CRCS`, and either is an index hit or is read without failure by `calc_file_crc`:
the record has the name of the entry, its current time, and as checksum the cached
one on an index hit or the `crc32c_hw` of the full contents of the file on a miss;
the other entries get no record; `calc_file_crc` is called on the regular files
that are not index hits and on no other; an absent previous manifest gives the
records of an empty one.  When the manifest cannot be opened for writing it is left
as it was. -/
theorem update_crcfile_manifest (fs : FileSystem) :
    (update_crcfile fs).fs.crcs
      = (if fs.crcs_writable = true
          then some (((dir_entries fs).filterMap (spec_update_record fs)).map
            fprintf_record).flatten
          else fs.crcs) ∧
    (update_crcfile fs).calc_calls
      = (if fs.crcs_writable = true then (dir_entries fs).filter (spec_file_read fs)
          else []) ∧
    (∀ n, spec_update_record { fs with crcs := none } n
      = spec_update_record { fs with crcs := some [] } n) := by
  refine ⟨?_, ?_, ?_⟩
  · cases hw : fs.crcs_writable with
    | false => simp [update_crcfile, hw]
    | true =>
      cases hd : fs.dir with
      | none => simp [update_crcfile, hw, hd, dir_entries]
      | some entries =>
        rw [update_crcfile_eq fs entries hw hd]
        have e : entries.filterMap (update_record fs (load_crcfile fs))
            = entries.filterMap (spec_update_record fs) :=
          List.filterMap_congr (fun n _ => update_record_eq_spec fs n)
        simp [dir_entries, hd, e]
  · cases hw : fs.crcs_writable with
    | false => simp [update_crcfile, hw]
    | true =>
      cases hd : fs.dir with
      | none => simp [update_crcfile, hw, hd, dir_entries]
      | some entries =>
        rw [update_crcfile_eq fs entries hw hd]
        have e : entries.map (update_calls fs (load_crcfile fs))
            = entries.map (fun n => if spec_file_read fs n = true then [n] else []) :=
          List.map_congr_left (fun n _ => update_calls_eq_spec fs n)
        simp only [e, flatten_map_ite, dir_entries, hd, if_true]
  · intro n
    unfold spec_update_record
    have h := load_crcfile_absent fs
    cases hl : fs.lookup n with
    | none => rfl
    | some f =>
      have e1 : calc_file_crc { fs with crcs := none } n
          = calc_file_crc { fs with crcs := some [] } n := calc_file_crc_congr _ _ rfl n
      simp only [hl, (h _ _).1, (h _ _).2, e1]

end Crcs
